import Mathlib

/-!
Verification of the Torq repository against its specification.

Part A models the byte-level scripts found under `src/scripts/`
(populate-cache.py, test-cache-persistence.py,
adapters/capture_coinbase_trades.py).

Part B models the Task Dependency Graph Engine described by the
specification (graph construction, cycle detection, Kahn scheduling,
critical path, leveling, readiness); the engine implementation itself is
not among the source files, so those definitions are modelled from the
spec, as their doc comments state.
-/

namespace Torq

/-! ### Little-endian byte encodings (Python `struct.pack`/`unpack`) -/

/-- Little-endian encoding of `n` into `k` bytes; byte `i` is
`n / 256 ^ i % 256`, exactly the bytes `struct.pack` emits for an
in-range argument (`struct.pack` raises for out-of-range arguments, which
the theorems reflect as range hypotheses). -/
def leBytes : Nat → Nat → List Nat
  | 0, _ => []
  | k + 1, n => n % 256 :: leBytes k (n / 256)

/-- Little-endian decoding of a byte list, as `struct.unpack` computes. -/
def leVal : List Nat → Nat
  | [] => 0
  | b :: bs => b + 256 * leVal bs

lemma leBytes_length (k n : Nat) : (leBytes k n).length = k := by
  induction k generalizing n with
  | zero => rfl
  | succ k ih => simp [leBytes, ih]

lemma leVal_leBytes (k n : Nat) (h : n < 256 ^ k) : leVal (leBytes k n) = n := by
  induction k generalizing n with
  | zero =>
    simp [leBytes, leVal]
    exact (Nat.lt_one_iff.mp (by simpa using h)).symm
  | succ k ih =>
    have hdiv : n / 256 < 256 ^ k := by
      have : n < 256 ^ k * 256 := by
        rw [pow_succ] at h
        exact h
      exact Nat.div_lt_of_lt_mul (by omega)
    simp only [leBytes, leVal, ih _ hdiv]
    omega

lemma leBytes_leVal (bs : List Nat) (k : Nat) (hk : bs.length = k)
    (hb : ∀ b ∈ bs, b < 256) : leBytes k (leVal bs) = bs := by
  induction bs generalizing k with
  | nil => subst hk; rfl
  | cons b bs ih =>
    subst hk
    have hblt : b < 256 := hb b (by simp)
    simp only [List.length_cons, leBytes, leVal]
    have h1 : (b + 256 * leVal bs) % 256 = b := by omega
    have h2 : (b + 256 * leVal bs) / 256 = leVal bs := by omega
    rw [h1, h2, ih bs.length rfl (fun x hx => hb x (by simp [hx]))]

lemma leVal_lt (bs : List Nat) (hb : ∀ b ∈ bs, b < 256) :
    leVal bs < 256 ^ bs.length := by
  induction bs with
  | nil => simp [leVal]
  | cons b bs ih =>
    have h1 : b < 256 := hb b (by simp)
    have h2 : leVal bs < 256 ^ bs.length := ih (fun x hx => hb x (by simp [hx]))
    simp only [leVal, List.length_cons, pow_succ]
    calc b + 256 * leVal bs < 256 + 256 * leVal bs := by omega
    _ = 256 * (leVal bs + 1) := by ring
    _ ≤ 256 * 256 ^ bs.length := by
        have := Nat.succ_le_of_lt h2
        exact Nat.mul_le_mul_left 256 this
    _ = 256 ^ bs.length * 256 := by ring

/-! ### C8: `populate-cache.py`, function `main`

The script converts a JSON pool list to the TLV cache file
`polygon_137.cache`.  A pool record's hex addresses are modelled as
already-decoded byte lists (the claim's premise is that the JSON carries
0x-prefixed 20-byte hex addresses).  The `time.time()` calls are modelled
as parameters: `hdrNow` for the header write and `recNow i` for the call
made while writing pool `i`. -/

structure PoolJson where
  pool_address : List Nat
  token0 : List Nat
  token1 : List Nat
  token0_decimals : Option Nat
  token1_decimals : Option Nat
  protocol : Option String
  fee_tier : Option Nat

/-- `pool_type = 2 if pool.get("protocol") == "V3" else 1`. -/
def poolTypeByte (p : PoolJson) : Nat :=
  if p.protocol = some "V3" then 2 else 1

/-- The 83 bytes written for one pool by the loop body of `main`:
address, token0, token1, decimals (default 18), pool type, fee tier
(default 30), and the two timestamps. -/
def poolRecord (now : Nat) (p : PoolJson) : List Nat :=
  p.pool_address ++ p.token0 ++ p.token1
    ++ [p.token0_decimals.getD 18] ++ [p.token1_decimals.getD 18]
    ++ [poolTypeByte p]
    ++ leBytes 4 (p.fee_tier.getD 30)
    ++ leBytes 8 now ++ leBytes 8 now

/-- The 24-byte header `main` writes: magic `b"POOL"`, version 1, three
reserved zero bytes, pool count, chain id 137, timestamp. -/
def cacheHeader (count now : Nat) : List Nat :=
  [80, 79, 79, 76] ++ [1] ++ [0, 0, 0]
    ++ leBytes 4 count ++ leBytes 4 137 ++ leBytes 8 now

/-- The full byte stream `main` writes to `polygon_137.cache`. -/
def writeCacheFile (pools : List PoolJson) (hdrNow : Nat) (recNow : Nat → Nat) :
    List Nat :=
  cacheHeader pools.length hdrNow
    ++ (pools.enum.map (fun pi => poolRecord (recNow pi.1) pi.2)).flatten

/-! ### C9: `test-cache-persistence.py`, function `add_test_pool`

The function reads the cache file, parses the header, and rewrites the
file with an incremented pool count, a fresh header timestamp, the
existing pool records, and one hard-coded new record.  `newNow` models
the `time.time()` call used for the new record's timestamps and `hdrNow`
the later call used for the header. -/

/-- The hard-coded test pool record (pool address
0xdc9232e2df177d7a12fdff6ecbab114e2231198d, WMATIC, USDC, decimals 18/6,
pool type 1, fee tier 30, fresh timestamps). -/
def newTestPool (newNow : Nat) : List Nat :=
  [220, 146, 50, 226, 223, 23, 125, 122, 18, 253,
   255, 110, 203, 171, 17, 78, 34, 49, 25, 141]
    ++ [13, 80, 11, 29, 142, 142, 243, 30, 33, 201,
        157, 29, 185, 166, 68, 77, 58, 223, 18, 112]
    ++ [39, 145, 188, 161, 242, 222, 70, 97, 237, 136,
        163, 12, 153, 167, 169, 68, 154, 168, 65, 116]
    ++ [18, 6, 1]
    ++ leBytes 4 30
    ++ leBytes 8 newNow ++ leBytes 8 newNow

/-- The parsed `pool_count` field, `struct.unpack("<I", data[8:12])[0]`. -/
def parsedPoolCount (data : List Nat) : Nat :=
  leVal ((data.drop 8).take 4)

/-- The byte stream `add_test_pool` writes back: original magic, version
byte, reserved bytes, `pool_count + 1`, the re-packed chain id, a fresh
timestamp, the slice `data[24:24 + 83 * pool_count]`, and the new pool
record. -/
def add_test_pool (data : List Nat) (newNow hdrNow : Nat) : List Nat :=
  data.take 4
    ++ leBytes 1 (data.getD 4 0)
    ++ (data.drop 5).take 3
    ++ leBytes 4 (parsedPoolCount data + 1)
    ++ leBytes 4 (leVal ((data.drop 12).take 4))
    ++ leBytes 8 hdrNow
    ++ (data.drop 24).take (83 * parsedPoolCount data)
    ++ newTestPool newNow

/-! ### C10: `adapters/capture_coinbase_trades.py`, class `CoinbaseDataCapture`

`capture_data` inspects every successfully parsed WebSocket message and
appends it to `captured_trades` when its `"type"` is `"match"` and to
`captured_l2updates` when it is `"l2update"`; all other types
(`subscriptions`, `heartbeat`, `error`, unknown) are only printed.
`save_samples` then persists exactly those two lists.  A parsed message
is modelled by its `"type"` field (`message.get("type")`, `none` when the
field is absent); the wrapper dict that also records a capture timestamp
is irrelevant to which messages are stored. -/

structure CBMessage where
  msgType : Option String
deriving DecidableEq, Repr

structure CaptureState where
  captured_trades : List CBMessage
  captured_l2updates : List CBMessage
deriving DecidableEq, Repr

/-- The per-message branch of the `capture_data` loop. -/
def captureStep (s : CaptureState) (m : CBMessage) : CaptureState :=
  if m.msgType = some "match" then
    { s with captured_trades := s.captured_trades ++ [m] }
  else if m.msgType = some "l2update" then
    { s with captured_l2updates := s.captured_l2updates ++ [m] }
  else
    s

/-- `capture_data` over a finite stream of parsed messages, starting from
the empty state built by `__init__`. -/
def capture_data (msgs : List CBMessage) : CaptureState :=
  msgs.foldl captureStep ⟨[], []⟩

/-- The trade messages `save_samples` persists (`trades_raw.json` holds
exactly the raw messages of `captured_trades`). -/
def savedTrades (msgs : List CBMessage) : List CBMessage :=
  (capture_data msgs).captured_trades

/-- The l2update messages `save_samples` persists. -/
def savedL2Updates (msgs : List CBMessage) : List CBMessage :=
  (capture_data msgs).captured_l2updates

/-! ## Part B: the Task Dependency Graph Engine

The engine itself is not among the source files under `src/` (the spec
was extracted from graph logic duplicated across scripts that are not in
the file set), so every definition in this part is modelled from the
spec.  Each doc comment names the spec section it follows. -/

/-- Modelled from the spec: §3 task status,
one of Pending, InProgress, Complete, Blocked. -/
inductive Status where
  | pending
  | inProgress
  | complete
  | blocked
deriving DecidableEq, Repr

/-- Modelled from the spec: §3 priority, ordered enum
Critical, High, Medium, Low. -/
inductive Priority where
  | critical
  | high
  | medium
  | low
deriving DecidableEq, Repr

/-- Modelled from the spec: §3 Task record. -/
structure Task where
  id : String
  status : Status
  priority : Priority
  dependsOn : List String
  blocks : List String
  scope : List String
  group : Option String
deriving DecidableEq, Repr

/-- Modelled from the spec: §7 error taxonomy (the errors relevant to the
claims: DuplicateIdError, SelfDependencyError, CyclicGraphError; every
error names the offending ids). -/
inductive EngineError where
  | duplicateId (id : String)
  | selfDependency (id : String)
  | cyclicGraph (members : List String)
deriving DecidableEq, Repr

/-- Modelled from the spec: §3/§4.1 dependency graph — vertex list plus a
forward adjacency structure mapping each task id to the ids that depend
on it (successors). -/
structure Graph where
  nodes : List String
  adj : List (String × List String)
deriving DecidableEq, Repr

/-- Successors of `u` (empty for an id with no adjacency entry). -/
def Graph.succs (g : Graph) (u : String) : List String :=
  (g.adj.lookup u).getD []

/-- The edge relation: `(u → v)` when `v` is a recorded successor of `u`. -/
def Edge (g : Graph) (u v : String) : Prop :=
  v ∈ g.succs u

instance (g : Graph) (u v : String) : Decidable (Edge g u v) := by
  unfold Edge; infer_instance

/-- Structural sanity of a graph: distinct vertices, and every adjacency
row keyed by a vertex, duplicate-free, with successors among the
vertices (spec §3: every edge endpoint references a known task id). -/
def Graph.Wellformed (g : Graph) : Prop :=
  g.nodes.Nodup ∧ ∀ p ∈ g.adj, p.1 ∈ g.nodes ∧ p.2.Nodup ∧ p.2 ⊆ g.nodes

instance (g : Graph) : Decidable g.Wellformed := by
  unfold Graph.Wellformed; infer_instance

/-- Nonempty directed paths along edges. -/
inductive Path (g : Graph) : String → String → Prop where
  | edge {u v : String} : Edge g u v → Path g u v
  | cons {u v w : String} : Edge g u v → Path g v w → Path g u w

/-- Nonempty directed paths whose vertices all satisfy `S`. -/
inductive PathIn (g : Graph) (S : String → Prop) : String → String → Prop where
  | edge {u v : String} : S u → S v → Edge g u v → PathIn g S u v
  | cons {u v w : String} : S u → Edge g u v → PathIn g S v w → PathIn g S u w

/-- A graph is acyclic when no vertex lies on a directed cycle. -/
def Acyclic (g : Graph) : Prop :=
  ∀ u, ¬ Path g u u

/-- The empty graph. -/
def emptyGraph : Graph := ⟨[], []⟩

/-! Deterministic id ordering.  The spec breaks ties by ascending id;
string comparison is modelled byte-lexicographically on the character
codes. -/

def charListLe : List Char → List Char → Bool
  | [], _ => true
  | _ :: _, [] => false
  | x :: xs, y :: ys =>
    if x.val < y.val then true
    else if y.val < x.val then false
    else charListLe xs ys

def strLe (a b : String) : Bool :=
  charListLe a.data b.data

def insertSorted (x : String) : List String → List String
  | [] => [x]
  | y :: ys => if strLe x y then x :: y :: ys else y :: insertSorted x ys

/-- Sort a list of ids ascending (insertion sort). -/
def sortIds (l : List String) : List String :=
  l.foldr insertSorted []

/-! ### GraphBuilder (spec §4.1, §7) -/

/-- First id occurring twice in the list, if any. -/
def firstDupId : List String → Option String
  | [] => none
  | x :: xs => if x ∈ xs then some x else firstDupId xs

/-- Modelled from the spec: §4.1 — forward adjacency: the successors of
`t.id` are the ids of tasks whose `dependsOn` contains `t.id`, together
with the known ids in `t.blocks` (§3: both field kinds contribute
edges); dangling references are not edges. -/
def buildAdj (tasks : List Task) : List (String × List String) :=
  tasks.map (fun t =>
    (t.id,
      ((tasks.filter (fun v => t.id ∈ v.dependsOn)).map (fun v => v.id)
        ++ t.blocks.filter (fun b => tasks.any (fun v => v.id == b))).dedup))

/-- Modelled from the spec: §4.1 build output — the graph, an id-to-task
lookup, and the recorded dangling `(task_id, missing_dependency_id)`
pairs. -/
structure BuildResult where
  graph : Graph
  byId : List (String × Task)
  dangling : List (String × String)
deriving Repr

/-- Modelled from the spec: §4.1 and §7 — structural validation
(duplicate ids, then self-dependency) fails fast before any graph is
produced; otherwise the adjacency structure, the id lookup, and the
dangling-reference report are built. -/
def buildGraph (tasks : List Task) : Except EngineError BuildResult :=
  match firstDupId (tasks.map (fun t => t.id)) with
  | some d => .error (.duplicateId d)
  | none =>
    match tasks.find? (fun t => t.dependsOn.contains t.id) with
    | some t => .error (.selfDependency t.id)
    | none =>
      .ok
        { graph := ⟨tasks.map (fun t => t.id), buildAdj tasks⟩
          byId := tasks.map (fun t => (t.id, t))
          dangling := tasks.foldr (fun t acc =>
            (t.dependsOn.filter
                (fun d => !(tasks.any (fun v => v.id == d)))).map (fun d => (t.id, d))
              ++ (t.blocks.filter
                  (fun b => !(tasks.any (fun v => v.id == b)))).map (fun b => (t.id, b))
              ++ acc) [] }

/-! ### TopologicalScheduler (spec §4.3, Kahn's algorithm) -/

/-- The recorded predecessors of `v`: vertices with an edge into `v`. -/
def preds (g : Graph) (v : String) : List String :=
  g.nodes.filter (fun u => decide (Edge g u v))

/-- Initial in-degree of `v`, computed from the edge set. -/
def indeg0 (g : Graph) (v : String) : Nat :=
  (preds g v).length

/-- Modelled from the spec: §4.3 Kahn loop — dequeue, append to the
order, decrement the successors' in-degrees, enqueue (in ascending id
order) every successor whose in-degree reaches zero.  The fuel argument
only bounds the iteration count; `topologicalSchedule` supplies enough
for the loop to run until the queue empties. -/
def kahnLoop (g : Graph) : Nat → (String → Nat) → List String → List String → List String
  | 0, _, _, order => order
  | _ + 1, _, [], order => order
  | fuel + 1, indeg, v :: queue, order =>
    kahnLoop g fuel
      (fun w => if w ∈ g.succs v then indeg w - 1 else indeg w)
      (queue ++ sortIds ((g.succs v).filter (fun w => decide (indeg w = 1))))
      (order ++ [v])

/-- Modelled from the spec: §4.3 — seed the queue with the zero-in-degree
vertices in ascending id order, run Kahn's loop, and report
`hasCycle = true` exactly when the emitted order is shorter than the
vertex count.  No error is ever raised: on cyclic input the partial
order is returned together with the flag. -/
def topologicalSchedule (g : Graph) : List String × Bool :=
  let order := kahnLoop g g.nodes.length (indeg0 g)
    (sortIds (g.nodes.filter (fun v => decide (indeg0 g v = 0)))) []
  (order, decide (order.length < g.nodes.length))

/-! ### CycleDetector (spec §4.2, three-color DFS) -/

/-- Fold a single-vertex visitor over a work list, threading the black
set and stopping at the first detected back edge. -/
def dfsFold (visit1 : List String → String → List String × Option (List String)) :
    List String → List String → List String × Option (List String)
  | black, [] => (black, none)
  | black, u :: us =>
    match visit1 black u with
    | (black2, some ms) => (black2, some ms)
    | (black2, none) => dfsFold visit1 black2 us

/-- Modelled from the spec: §4.2 — visit of one vertex in the
white/gray/black DFS.  `black` holds finished vertices and `gray` the
current path.  A black vertex is skipped; meeting a gray vertex is a
back edge, returning the set of gray vertices plus the back-edge target
as culprit evidence; a white vertex is pushed onto the gray path, its
successors are explored, and it is then marked black.  The fuel bounds
the recursion depth; `cycleDetector` supplies enough for it never to run
out. -/
def dfsNode (g : Graph) : Nat → List String → List String → String →
    List String × Option (List String)
  | fuel, black, gray, u =>
    if u ∈ black then (black, none)
    else if u ∈ gray then (black, some ((gray ++ [u]).dedup))
    else
      match fuel with
      | 0 => (black, none)
      | fuel + 1 =>
        match dfsFold (fun b x => dfsNode g fuel b (gray ++ [u]) x) black (g.succs u) with
        | (black2, some ms) => (black2, some ms)
        | (black2, none) => (black2 ++ [u], none)

/-- Modelled from the spec: §4.2 — DFS from every vertex in stable
(ascending id) order; returns `(hasCycle, cycleMembers)`, and `(false, ∅)`
on the empty graph. -/
def cycleDetector (g : Graph) : Bool × List String :=
  match dfsFold (fun b u => dfsNode g g.nodes.length b [] u) [] (sortIds g.nodes) with
  | (_, some ms) => (true, ms)
  | (_, none) => (false, [])

/-! ### CriticalPathAnalyzer (spec §4.4) -/

/-- Modelled from the spec: §4.4 dynamic programming — longest chain
length from each vertex, filled in reverse topological order:
`longest(node) = 1 + max(longest(successor), default 0)`. -/
def longestMap (g : Graph) : List (String × Nat) :=
  (topologicalSchedule g).1.reverse.foldl
    (fun m u =>
      m ++ [(u, 1 + ((g.succs u).map (fun v => (m.lookup v).getD 0)).foldr max 0)])
    []

/-- Longest-chain value of a vertex (0 for an unknown id). -/
def longestOf (g : Graph) (u : String) : Nat :=
  ((longestMap g).lookup u).getD 0

/-- The candidate among `l` with the largest value, ties broken by the
lexicographically smallest id (spec §4.4 determinism rule). -/
def pickBest (f : String → Nat) : List String → Option String
  | [] => none
  | x :: xs =>
    match pickBest f xs with
    | none => some x
    | some y =>
      if f y < f x ∨ (f x = f y ∧ strLe x y) then some x else some y

/-- Walk from a start vertex, repeatedly stepping to the best successor,
emitting the critical path. -/
def walkChain (g : Graph) : Nat → String → List String
  | 0, u => [u]
  | fuel + 1, u =>
    u :: (match pickBest (longestOf g) (g.succs u) with
      | none => []
      | some v => walkChain g fuel v)

/-- Modelled from the spec: §4.4 — refuse to run on cyclic input,
signalling `CyclicGraphError` with the culprit ids; otherwise emit the
longest chain (the empty graph yields the empty path).  The walk is
fuel-bounded by the vertex count, so the analyzer always terminates. -/
def criticalPath (g : Graph) : Except EngineError (List String) :=
  if (cycleDetector g).1 then .error (.cyclicGraph (cycleDetector g).2)
  else .ok
    (match pickBest (longestOf g) g.nodes with
      | none => []
      | some s => walkChain g g.nodes.length s)

/-! ### ParallelGrouper (spec §4.6) -/

/-- The `dependsOn` list of the task with a given id (empty for an
unknown id). -/
def depsOf (tasks : List Task) (tid : String) : List String :=
  ((tasks.find? (fun t => t.id == tid)).map Task.dependsOn).getD []

/-- One leveling step: bind `tid` to
`1 + max(level(dep) for dep in dependsOn, default 0)`. -/
def levelEntry (tasks : List Task) (m : List (String × Nat)) (tid : String) :
    List (String × Nat) :=
  m ++ [(tid, 1 + ((depsOf tasks tid).map (fun d => (m.lookup d).getD 0)).foldr max 0)]

def levelsAux (tasks : List Task) : List (String × Nat) → List String → List (String × Nat)
  | m, [] => m
  | m, t :: ts => levelsAux tasks (levelEntry tasks m t) ts

/-- Modelled from the spec: §4.6 — for each task in topological order,
`level(task) = 1 + max(level(dep) for dep in dependsOn(task), default=0)`. -/
def computeLevels (tasks : List Task) (g : Graph) : List (String × Nat) :=
  levelsAux tasks [] (topologicalSchedule g).1

/-- Level of an id in a computed leveling (0 when absent). -/
def levelOf (m : List (String × Nat)) (u : String) : Nat :=
  (m.lookup u).getD 0

/-- Modelled from the spec: §4.6 — refuse on cyclic input like §4.4,
otherwise group the pending tasks by level, ascending. -/
def parallelGroups (tasks : List Task) (g : Graph) :
    Except EngineError (List (List String)) :=
  if (cycleDetector g).1 then .error (.cyclicGraph (cycleDetector g).2)
  else
    let lv := computeLevels tasks g
    let pending := tasks.filter (fun t => t.status == Status.pending)
    let maxLevel := (pending.map (fun t => levelOf lv t.id)).foldr max 0
    .ok (((List.range (maxLevel + 1)).map (fun k =>
      (pending.filter (fun t => levelOf lv t.id == k)).map (fun t => t.id))).filter
        (fun l => !l.isEmpty))

/-! ### ReadinessEvaluator (spec §4.7) -/

/-- Modelled from the spec: §4.7 actionable statuses (`Pending`). -/
def actionable (s : Status) : Bool :=
  s == Status.pending

/-- Modelled from the spec: §3/§4.7 terminal-complete statuses
(`Complete`; no status of the model is marked cancelled). -/
def terminalComplete (s : Status) : Bool :=
  s == Status.complete

/-- Lookup of a task record by id among the known tasks. -/
def findTask (tasks : List Task) (tid : String) : Option Task :=
  tasks.find? (fun t => t.id == tid)

/-- Modelled from the spec: §4.7 — a task is ready iff its status is
actionable and every id in its `dependsOn` set resolves to a known task
whose status is terminal-complete; an unresolved id fails closed. -/
def isReady (tasks : List Task) (t : Task) : Bool :=
  actionable t.status &&
    t.dependsOn.all (fun d =>
      match findTask tasks d with
      | some dt => terminalComplete dt.status
      | none => false)

/-- Numeric priority rank (Critical first), used only for output order. -/
def priorityRank : Priority → Nat
  | .critical => 0
  | .high => 1
  | .medium => 2
  | .low => 3

/-- Modelled from the spec: §4.7 output — the ready tasks sorted by
priority, ties broken by id. -/
def readyTasks (tasks : List Task) : List String :=
  (((tasks.filter (isReady tasks)).map (fun t => (priorityRank t.priority, t.id))).insertionSort
      (fun a b => a.1 < b.1 ∨ (a.1 = b.1 ∧ strLe a.2 b.2))).map Prod.snd

/-! ### Analysis pipeline used by the duplicate-id claim -/

/-- Every analysis consumes the builder's output, so a build-time error
propagates and no analysis result is produced. -/
def runAnalyses (tasks : List Task) :
    Except EngineError
      ((List String × Bool) × Except EngineError (List String) ×
        Except EngineError (List (List String)) × List String) :=
  (buildGraph tasks).map (fun br =>
    (topologicalSchedule br.graph, criticalPath br.graph,
      parallelGroups tasks br.graph, readyTasks tasks))

/-! ### Definitions used by the verification itself -/

/-- Number of predecessors of `v` not yet emitted into `order` (the
quantity Kahn's in-degree counter tracks). -/
def kahnCnt (g : Graph) (order : List String) (v : String) : Nat :=
  ((preds g v).filter (fun u => decide (u ∉ order))).length

/-- Invariant of the Kahn loop state. -/
def KahnInv (g : Graph) (indeg : String → Nat) (queue order : List String) : Prop :=
  (order ++ queue).Nodup ∧
  queue ⊆ g.nodes ∧
  order ⊆ g.nodes ∧
  (∀ v ∈ queue, ∀ u, Edge g u v → u ∈ order) ∧
  (∀ v ∈ g.nodes, v ∉ order → indeg v = kahnCnt g order v) ∧
  (∀ v ∈ g.nodes, v ∉ order → kahnCnt g order v = 0 → v ∈ queue) ∧
  (∀ u v, Edge g u v → v ∈ order → u ∈ order ∧ order.indexOf u < order.indexOf v)

/-- What holds of the order the Kahn loop finally emits. -/
def KahnFinal (g : Graph) (res : List String) : Prop :=
  res.Nodup ∧
  res ⊆ g.nodes ∧
  (∀ u v, Edge g u v → v ∈ res → u ∈ res ∧ res.indexOf u < res.indexOf v) ∧
  (∀ v ∈ g.nodes, v ∉ res → kahnCnt g res v ≠ 0)

/-- Black list sorted compatibly with the edges: every successor of a
black vertex is black and was finished earlier. -/
def BlackSorted (g : Graph) (black : List String) : Prop :=
  ∀ u ∈ black, ∀ v, Edge g u v → v ∈ black ∧ black.indexOf v < black.indexOf u

/-- A small acyclic example (the §8 scenario A, B → C → D). -/
def exampleDag : Graph :=
  ⟨["A", "B", "C", "D"], [("A", ["C"]), ("B", ["C"]), ("C", ["D"]), ("D", [])]⟩

/-- A two-vertex cycle (the §8 scenario X ↔ Y). -/
def exampleCycle : Graph :=
  ⟨["X", "Y"], [("X", ["Y"]), ("Y", ["X"])]⟩

/-- Task records for the §8 scenario. -/
def exampleTasks : List Task :=
  [⟨"A", .complete, .medium, [], [], [], none⟩,
   ⟨"B", .pending, .medium, [], [], [], none⟩,
   ⟨"C", .pending, .medium, ["A", "B"], [], [], none⟩,
   ⟨"D", .pending, .medium, ["C"], [], [], none⟩]

/-- Task records with a duplicated id. -/
def exampleDupTasks : List Task :=
  [⟨"A", .pending, .medium, [], [], [], none⟩,
   ⟨"B", .pending, .medium, [], [], [], none⟩,
   ⟨"A", .complete, .low, [], [], [], none⟩]

/-- A pool entry with decoded 20-byte addresses. -/
def examplePool : PoolJson :=
  ⟨List.replicate 20 1, List.replicate 20 2, List.replicate 20 3,
    none, some 6, some "V3", none⟩

/-- A wellformed cache file holding zero pools (header only). -/
def exampleCacheData : List Nat :=
  [80, 79, 79, 76, 1, 0, 0, 0, 0, 0, 0, 0, 137, 0, 0, 0,
   0, 0, 0, 0, 0, 0, 0, 0]

/-! ## Part C: lemmas and claim theorems -/

/-! ### C10 -/

lemma capture_foldl (s : CaptureState) (msgs : List CBMessage) :
    (msgs.foldl captureStep s).captured_trades
        = s.captured_trades ++ msgs.filter (fun m => m.msgType == some "match") ∧
      (msgs.foldl captureStep s).captured_l2updates
        = s.captured_l2updates ++ msgs.filter (fun m => m.msgType == some "l2update") := by
  induction msgs generalizing s with
  | nil => simp
  | cons m ms ih =>
    obtain ⟨ih1, ih2⟩ := ih (captureStep s m)
    by_cases h1 : m.msgType = some "match"
    · simp only [List.foldl_cons, List.filter_cons] at *
      constructor
      · rw [ih1]
        simp [captureStep, h1]
      · rw [ih2]
        simp [captureStep, h1]
    · by_cases h2 : m.msgType = some "l2update"
      · simp only [List.foldl_cons, List.filter_cons] at *
        constructor
        · rw [ih1]; simp [captureStep, h1, h2]
        · rw [ih2]; simp [captureStep, h1, h2]
      · simp only [List.foldl_cons, List.filter_cons] at *
        constructor
        · rw [ih1]; simp [captureStep, h1, h2]
        · rw [ih2]; simp [captureStep, h1, h2]

/-- C10: a successfully parsed WebSocket message is appended to
`captured_trades` iff its type field is `"match"`, and to
`captured_l2updates` iff it is `"l2update"`; any other message
(`subscriptions`, `heartbeat`, `error`, unknown) is stored in neither
list, so `save_samples` persists exactly the match and l2update
messages, in arrival order. -/
theorem coinbase_capture_stores_only_match_and_l2update :
    (∀ s m, (captureStep s m).captured_trades
        = (if m.msgType = some "match" then s.captured_trades ++ [m]
           else s.captured_trades) ∧
      (captureStep s m).captured_l2updates
        = (if m.msgType = some "l2update" then s.captured_l2updates ++ [m]
           else s.captured_l2updates)) ∧
    ∀ msgs, savedTrades msgs = msgs.filter (fun m => m.msgType == some "match") ∧
      savedL2Updates msgs = msgs.filter (fun m => m.msgType == some "l2update") := by
  constructor
  · intro s m
    by_cases h1 : m.msgType = some "match"
    · have h2 : m.msgType ≠ some "l2update" := by simp [h1]
      simp [captureStep, h1, h2]
    · by_cases h2 : m.msgType = some "l2update"
      · simp [captureStep, h1, h2]
      · simp [captureStep, h1, h2]
  · intro msgs
    have := capture_foldl ⟨[], []⟩ msgs
    simpa [savedTrades, savedL2Updates, capture_data] using this

/-! ### Byte-slice helpers for C8 and C9 -/

lemma take_append_len {l1 l2 : List Nat} {n : Nat} (h : l1.length = n) :
    (l1 ++ l2).take n = l1 := by
  subst h
  simp

lemma drop_append_len {l1 l2 : List Nat} {n : Nat} (h : l1.length = n) :
    (l1 ++ l2).drop n = l2 := by
  subst h
  simp

lemma flatten_length_fixed {rs : List (List Nat)} {L : Nat}
    (h : ∀ r ∈ rs, r.length = L) : rs.flatten.length = L * rs.length := by
  induction rs with
  | nil => simp
  | cons r rs ih =>
    simp only [List.flatten_cons, List.length_append, List.length_cons]
    rw [h r (by simp), ih (fun x hx => h x (by simp [hx]))]
    ring

lemma flatten_drop_fixed {rs : List (List Nat)} {L i : Nat}
    (h : ∀ r ∈ rs, r.length = L) (hi : i ≤ rs.length) :
    rs.flatten.drop (L * i) = (rs.drop i).flatten := by
  induction i generalizing rs with
  | zero => simp
  | succ i ih =>
    match rs with
    | [] => simp at hi
    | r :: rs2 =>
      have hr : r.length = L := h r (by simp)
      have : L * (i + 1) = r.length + L * i := by rw [hr]; ring
      rw [this, List.flatten_cons, ← List.drop_drop]
      rw [drop_append_len rfl]
      simp only [List.drop_succ_cons]
      exact ih (fun x hx => h x (by simp [hx])) (by simpa using hi)

/-! ### C8 -/

lemma cacheHeader_length (c n : Nat) : (cacheHeader c n).length = 24 := by
  simp [cacheHeader, leBytes_length]

lemma poolRecord_length {now : Nat} {p : PoolJson}
    (h1 : p.pool_address.length = 20) (h2 : p.token0.length = 20)
    (h3 : p.token1.length = 20) : (poolRecord now p).length = 83 := by
  simp [poolRecord, leBytes_length, h1, h2, h3]

/-- The records written by `main`, as a list. -/
lemma writeCacheFile_eq (pools : List PoolJson) (hdrNow : Nat) (recNow : Nat → Nat) :
    writeCacheFile pools hdrNow recNow
      = cacheHeader pools.length hdrNow
        ++ (pools.enum.map (fun pi => poolRecord (recNow pi.1) pi.2)).flatten := rfl

lemma cacheRecords_length (pools : List PoolJson) (recNow : Nat → Nat)
    (haddr : ∀ p ∈ pools, p.pool_address.length = 20 ∧ p.token0.length = 20
      ∧ p.token1.length = 20) :
    ∀ r ∈ pools.enum.map (fun pi => poolRecord (recNow pi.1) pi.2), r.length = 83 := by
  intro r hr
  obtain ⟨pi, hpi, rfl⟩ := List.mem_map.mp hr
  have hp := haddr pi.2 (List.snd_mem_of_mem_enum hpi)
  exact poolRecord_length hp.1 hp.2.1 hp.2.2

/-- C8: on a pool list whose entries carry decoded 20-byte addresses,
`main` writes a 24-byte header — magic `b"POOL"`, version 1, three zero
reserved bytes, little-endian u32 pool count equal to the number of
pools, little-endian u32 chain id 137, little-endian u64 timestamp —
followed by exactly one 83-byte record per pool in input order; the
record's pool-type byte (offset 62) is 2 iff the pool's protocol is
`"V3"` and 1 otherwise, its decimals bytes default to 18 and its fee
tier to 30, and the body past the header has length `83 * pools.length`.
The range hypotheses mirror the arguments `struct.pack` accepts without
raising. -/
theorem populate_cache_layout (pools : List PoolJson) (hdrNow : Nat) (recNow : Nat → Nat)
    (haddr : ∀ p ∈ pools, p.pool_address.length = 20 ∧ p.token0.length = 20
      ∧ p.token1.length = 20)
    (hcnt : pools.length < 2 ^ 32)
    (hrange : ∀ p ∈ pools, p.token0_decimals.getD 18 < 256
      ∧ p.token1_decimals.getD 18 < 256 ∧ p.fee_tier.getD 30 < 2 ^ 32) :
    (writeCacheFile pools hdrNow recNow).take 4 = [80, 79, 79, 76] ∧
    ((writeCacheFile pools hdrNow recNow).drop 4).take 1 = [1] ∧
    ((writeCacheFile pools hdrNow recNow).drop 5).take 3 = [0, 0, 0] ∧
    ((writeCacheFile pools hdrNow recNow).drop 8).take 4 = leBytes 4 pools.length ∧
    leVal (((writeCacheFile pools hdrNow recNow).drop 8).take 4) = pools.length ∧
    ((writeCacheFile pools hdrNow recNow).drop 12).take 4 = leBytes 4 137 ∧
    ((writeCacheFile pools hdrNow recNow).drop 16).take 8 = leBytes 8 hdrNow ∧
    ((writeCacheFile pools hdrNow recNow).drop 24).length = 83 * pools.length ∧
    (∀ i, (hi : i < pools.length) →
      ((writeCacheFile pools hdrNow recNow).drop (24 + 83 * i)).take 83
        = poolRecord (recNow i) (pools.get ⟨i, hi⟩)) ∧
    ∀ i, (hi : i < pools.length) →
      ((writeCacheFile pools hdrNow recNow).drop (24 + 83 * i + 62)).take 1
        = [if (pools.get ⟨i, hi⟩).protocol = some "V3" then 2 else 1] := by
  clear hrange
  have hrec := cacheRecords_length pools recNow haddr
  set rs := pools.enum.map (fun pi => poolRecord (recNow pi.1) pi.2) with hrs
  have hrslen : rs.length = pools.length := by simp [hrs]
  have hfile := writeCacheFile_eq pools hdrNow recNow
  have hdrop24 : (writeCacheFile pools hdrNow recNow).drop 24 = rs.flatten := by
    rw [hfile, drop_append_len (cacheHeader_length _ _)]
  have hhead : ∀ k j : Nat, k + j ≤ 24 →
      ((writeCacheFile pools hdrNow recNow).drop k).take j
        = ((cacheHeader pools.length hdrNow).drop k).take j := by
    intro k j hkj
    rw [hfile, List.drop_append_of_le_length (by rw [cacheHeader_length]; omega)]
    rw [List.take_append_of_le_length]
    rw [List.length_drop, cacheHeader_length]
    omega
  have hrecAt : ∀ i, (hi : i < pools.length) →
      ((writeCacheFile pools hdrNow recNow).drop (24 + 83 * i)).take 83
        = poolRecord (recNow i) (pools.get ⟨i, hi⟩) := by
    intro i hi
    have hi2 : i < rs.length := by omega
    have h1 : (writeCacheFile pools hdrNow recNow).drop (24 + 83 * i)
        = (rs.drop i).flatten := by
      rw [← List.drop_drop, hdrop24]
      exact flatten_drop_fixed hrec (by omega)
    have h2 : rs.drop i = rs[i] :: rs.drop (i + 1) := List.drop_eq_getElem_cons hi2
    have h3 : rs[i] = poolRecord (recNow i) (pools.get ⟨i, hi⟩) := by
      simp only [hrs, List.getElem_map]
      rw [List.getElem_enum]
      simp [List.get_eq_getElem]
    rw [h1, h2, List.flatten_cons, h3]
    exact take_append_len (poolRecord_length (haddr _ (by simp)).1
      (haddr _ (by simp)).2.1 (haddr _ (by simp)).2.2)
  have hcount : ((cacheHeader pools.length hdrNow).drop 8).take 4
      = leBytes 4 pools.length := by
    show ((([80, 79, 79, 76] ++ [1] ++ [0, 0, 0])
      ++ (leBytes 4 pools.length ++ (leBytes 4 137 ++ leBytes 8 hdrNow))).drop 8).take 4
        = leBytes 4 pools.length
    rw [drop_append_len (by simp), take_append_len (leBytes_length _ _)]
  have hchain : ((cacheHeader pools.length hdrNow).drop 12).take 4 = leBytes 4 137 := by
    show ((((([80, 79, 79, 76] ++ [1] ++ [0, 0, 0]) ++ leBytes 4 pools.length)
      ++ (leBytes 4 137 ++ leBytes 8 hdrNow))).drop 12).take 4 = leBytes 4 137
    rw [drop_append_len (by simp [leBytes_length]), take_append_len (leBytes_length _ _)]
  have hts : ((cacheHeader pools.length hdrNow).drop 16).take 8 = leBytes 8 hdrNow := by
    show ((((([80, 79, 79, 76] ++ [1] ++ [0, 0, 0]) ++ leBytes 4 pools.length
      ++ leBytes 4 137) ++ leBytes 8 hdrNow)).drop 16).take 8 = leBytes 8 hdrNow
    rw [drop_append_len (by simp [leBytes_length]), List.take_of_length_le (by simp [leBytes_length])]
  refine ⟨?_, ?_, ?_, ?_, ?_, ?_, ?_, ?_, hrecAt, ?_⟩
  · have := hhead 0 4 (by omega)
    simp only [List.drop_zero] at this
    rw [this]
    simp [cacheHeader]
  · have := hhead 4 1 (by omega)
    rw [this]
    simp [cacheHeader]
  · have := hhead 5 3 (by omega)
    rw [this]
    simp [cacheHeader]
  · rw [hhead 8 4 (by omega), hcount]
  · rw [hhead 8 4 (by omega), hcount]
    exact leVal_leBytes 4 pools.length (by exact_mod_cast hcnt)
  · rw [hhead 12 4 (by omega), hchain]
  · rw [hhead 16 8 (by omega), hts]
  · rw [hdrop24, flatten_length_fixed hrec, hrslen]
  · intro i hi
    have h2 := hrecAt i hi
    set X := (writeCacheFile pools hdrNow recNow).drop (24 + 83 * i) with hX
    have h3 : (X.drop 62).take 1 = ((X.take 83).drop 62).take 1 := by
      rw [List.drop_take]
      rw [List.take_take]
      norm_num
    rw [← List.drop_drop, h3, h2]
    obtain ⟨ha, hb, hc⟩ := haddr (pools.get ⟨i, hi⟩) (by simp)
    have hre : poolRecord (recNow i) (pools.get ⟨i, hi⟩)
        = ((pools.get ⟨i, hi⟩).pool_address ++ (pools.get ⟨i, hi⟩).token0
          ++ (pools.get ⟨i, hi⟩).token1 ++ [(pools.get ⟨i, hi⟩).token0_decimals.getD 18]
          ++ [(pools.get ⟨i, hi⟩).token1_decimals.getD 18])
          ++ ([poolTypeByte (pools.get ⟨i, hi⟩)]
            ++ (leBytes 4 ((pools.get ⟨i, hi⟩).fee_tier.getD 30)
              ++ (leBytes 8 (recNow i) ++ leBytes 8 (recNow i)))) := by
      simp [poolRecord, List.append_assoc]
    rw [hre, drop_append_len (by
      simp only [List.get_eq_getElem] at ha hb hc
      simp [ha, hb, hc])]
    rfl

/-- C8 witness: a single-pool input with valid addresses, evaluated. -/
theorem populate_cache_layout_witness :
    (∀ p ∈ [examplePool], p.pool_address.length = 20 ∧ p.token0.length = 20
      ∧ p.token1.length = 20) ∧
    ([examplePool] : List PoolJson).length < 2 ^ 32 ∧
    (∀ p ∈ [examplePool], p.token0_decimals.getD 18 < 256
      ∧ p.token1_decimals.getD 18 < 256 ∧ p.fee_tier.getD 30 < 2 ^ 32) ∧
    (writeCacheFile [examplePool] 5 (fun _ => 7)).take 4 = [80, 79, 79, 76] :=
  ⟨by decide, by decide, by decide,
    (populate_cache_layout [examplePool] 5 (fun _ => 7)
      (by decide) (by decide) (by decide)).1⟩

/-! ### C9 -/

lemma newTestPool_length (newNow : Nat) : (newTestPool newNow).length = 83 := by
  simp [newTestPool, leBytes_length]

/-- C9: on a wellformed cache file (byte-valued entries, length exactly
`24 + 83 * pool_count`), `add_test_pool` rewrites the file so that the
pool-count field reads the old count plus one, the magic, version,
reserved and chain-id bytes are preserved, the first
`pool_count * 83` bytes of pool records are unchanged, exactly one new
83-byte record is appended, and the only other change is the header
timestamp field (bytes 16–23), rewritten to the fresh timestamp. -/
theorem add_test_pool_frame (data : List Nat) (newNow hdrNow : Nat)
    (hbytes : ∀ b ∈ data, b < 256)
    (hlen : data.length = 24 + 83 * parsedPoolCount data)
    (hcnt : parsedPoolCount data + 1 < 2 ^ 32) :
    (add_test_pool data newNow hdrNow).take 4 = data.take 4 ∧
    ((add_test_pool data newNow hdrNow).drop 4).take 1 = (data.drop 4).take 1 ∧
    ((add_test_pool data newNow hdrNow).drop 5).take 3 = (data.drop 5).take 3 ∧
    parsedPoolCount (add_test_pool data newNow hdrNow) = parsedPoolCount data + 1 ∧
    ((add_test_pool data newNow hdrNow).drop 12).take 4 = (data.drop 12).take 4 ∧
    ((add_test_pool data newNow hdrNow).drop 16).take 8 = leBytes 8 hdrNow ∧
    ((add_test_pool data newNow hdrNow).drop 24).take (83 * parsedPoolCount data)
      = (data.drop 24).take (83 * parsedPoolCount data) ∧
    (add_test_pool data newNow hdrNow).drop (24 + 83 * parsedPoolCount data)
      = newTestPool newNow ∧
    (newTestPool newNow).length = 83 ∧
    (add_test_pool data newNow hdrNow).length = data.length + 83 := by
  set pc := parsedPoolCount data with hpc
  have h24 : 24 ≤ data.length := by omega
  set A := data.take 4 with hA
  set B := leBytes 1 (data.getD 4 0) with hB
  set C := (data.drop 5).take 3 with hC
  set D := leBytes 4 (pc + 1) with hD
  set E := leBytes 4 (leVal ((data.drop 12).take 4)) with hE
  set F := leBytes 8 hdrNow with hF
  set G := (data.drop 24).take (83 * pc) with hG
  set H := newTestPool newNow with hH
  have hlA : A.length = 4 := by rw [hA]; simp; omega
  have hlB : B.length = 1 := leBytes_length _ _
  have hlC : C.length = 3 := by rw [hC]; simp; omega
  have hlD : D.length = 4 := leBytes_length _ _
  have hlE : E.length = 4 := leBytes_length _ _
  have hlF : F.length = 8 := leBytes_length _ _
  have hlG : G.length = 83 * pc := by rw [hG]; simp; omega
  have hlH : H.length = 83 := newTestPool_length _
  have hout : add_test_pool data newNow hdrNow
      = A ++ (B ++ (C ++ (D ++ (E ++ (F ++ (G ++ H)))))) := by
    simp only [add_test_pool, ← hpc, ← hA, ← hB, ← hC, ← hD, ← hE, ← hF, ← hG, ← hH,
      List.append_assoc]
  set out := add_test_pool data newNow hdrNow with hodef
  have d4 : out.drop 4 = B ++ (C ++ (D ++ (E ++ (F ++ (G ++ H))))) := by
    rw [hout]; exact drop_append_len hlA
  have d5 : out.drop 5 = C ++ (D ++ (E ++ (F ++ (G ++ H)))) := by
    have : out.drop 5 = (out.drop 4).drop 1 := by rw [List.drop_drop]
    rw [this, d4, drop_append_len hlB]
  have d8 : out.drop 8 = D ++ (E ++ (F ++ (G ++ H))) := by
    have : out.drop 8 = (out.drop 5).drop 3 := by rw [List.drop_drop]
    rw [this, d5, drop_append_len hlC]
  have d12 : out.drop 12 = E ++ (F ++ (G ++ H)) := by
    have : out.drop 12 = (out.drop 8).drop 4 := by rw [List.drop_drop]
    rw [this, d8, drop_append_len hlD]
  have d16 : out.drop 16 = F ++ (G ++ H) := by
    have : out.drop 16 = (out.drop 12).drop 4 := by rw [List.drop_drop]
    rw [this, d12, drop_append_len hlE]
  have d24 : out.drop 24 = G ++ H := by
    have : out.drop 24 = (out.drop 16).drop 8 := by rw [List.drop_drop]
    rw [this, d16, drop_append_len hlF]
  have dEnd : out.drop (24 + 83 * pc) = H := by
    have : out.drop (24 + 83 * pc) = (out.drop 24).drop (83 * pc) := by
      rw [List.drop_drop]
    rw [this, d24, drop_append_len hlG]
  refine ⟨?_, ?_, ?_, ?_, ?_, ?_, ?_, dEnd, hlH, ?_⟩
  · rw [hout, take_append_len hlA, hA]
  · have h4 : 4 < data.length := by omega
    have hb4 : data[4] < 256 := hbytes _ (List.getElem_mem h4)
    rw [d4, take_append_len hlB, hB, List.getD_eq_getElem data 0 h4,
      List.drop_eq_getElem_cons h4]
    show leBytes 1 data[4] = [data[4]]
    simp [leBytes, Nat.mod_eq_of_lt hb4]
  · rw [d5, take_append_len hlC, hC]
  · show leVal ((out.drop 8).take 4) = pc + 1
    rw [d8, take_append_len hlD, hD]
    exact leVal_leBytes 4 (pc + 1) (by exact_mod_cast hcnt)
  · rw [d12, take_append_len hlE, hE]
    apply leBytes_leVal
    · simp; omega
    · intro b hb
      exact hbytes b (List.mem_of_mem_drop (List.mem_of_mem_take hb))
  · rw [d16, take_append_len hlF, hF]
  · rw [d24, take_append_len hlG, hG]
  · rw [hout]
    simp only [List.length_append, hlA, hlB, hlC, hlD, hlE, hlF, hlG, hlH]
    omega

/-- C9 witness: the empty wellformed cache file, appended to. -/
theorem add_test_pool_frame_witness :
    (∀ b ∈ exampleCacheData, b < 256) ∧
    exampleCacheData.length = 24 + 83 * parsedPoolCount exampleCacheData ∧
    parsedPoolCount exampleCacheData + 1 < 2 ^ 32 ∧
    (add_test_pool exampleCacheData 3 4).length = exampleCacheData.length + 83 :=
  ⟨by decide, by decide, by decide,
    (add_test_pool_frame exampleCacheData 3 4
      (by decide) (by decide) (by decide)).2.2.2.2.2.2.2.2.2⟩

/-! ### Basic engine lemmas -/

lemma mem_insertSorted (a x : String) (l : List String) :
    a ∈ insertSorted x l ↔ a = x ∨ a ∈ l := by
  induction l with
  | nil => simp [insertSorted]
  | cons y ys ih =>
    by_cases h : strLe x y = true
    · rw [insertSorted, if_pos h]
      simp [List.mem_cons]
    · rw [insertSorted, if_neg h]
      simp [List.mem_cons, ih]
      tauto

lemma nodup_insertSorted (x : String) (l : List String) (hx : x ∉ l) (hl : l.Nodup) :
    (insertSorted x l).Nodup := by
  induction l with
  | nil => simp [insertSorted]
  | cons y ys ih =>
    obtain ⟨hy, hys⟩ := List.nodup_cons.mp hl
    by_cases h : strLe x y = true
    · rw [insertSorted, if_pos h]
      exact List.nodup_cons.mpr ⟨hx, hl⟩
    · rw [insertSorted, if_neg h]
      rw [List.nodup_cons]
      refine ⟨?_, ih (fun hc => hx (by simp [hc])) hys⟩
      rw [mem_insertSorted]
      push_neg
      exact ⟨fun hc => hx (by simp [hc]), hy⟩

lemma mem_sortIds (a : String) (l : List String) : a ∈ sortIds l ↔ a ∈ l := by
  induction l with
  | nil => simp [sortIds]
  | cons y ys ih =>
    show a ∈ insertSorted y (sortIds ys) ↔ _
    rw [mem_insertSorted, ih]
    simp

lemma sortIds_nodup (l : List String) (hl : l.Nodup) : (sortIds l).Nodup := by
  induction l with
  | nil => simp [sortIds]
  | cons y ys ih =>
    obtain ⟨hy, hys⟩ := List.nodup_cons.mp hl
    show (insertSorted y (sortIds ys)).Nodup
    exact nodup_insertSorted y (sortIds ys) (fun hc => hy ((mem_sortIds y ys).mp hc))
      (ih hys)

lemma lookup_mem {α : Type} [DecidableEq α] {β : Type} {l : List (α × β)} {k : α} {v : β}
    (h : l.lookup k = some v) : (k, v) ∈ l := by
  induction l with
  | nil => simp [List.lookup] at h
  | cons p ps ih =>
    obtain ⟨k1, v1⟩ := p
    by_cases hk : k = k1
    · subst hk
      simp [List.lookup] at h
      subst h
      exact List.mem_cons_self _ _
    · have hki : (k == k1) = false := beq_eq_false_iff_ne.mpr hk
      simp [List.lookup, hki] at h
      exact List.mem_cons_of_mem _ (ih h)

lemma succs_nodup {g : Graph} (hwf : g.Wellformed) (u : String) : (g.succs u).Nodup := by
  unfold Graph.succs
  cases hl : g.adj.lookup u with
  | none => simp
  | some s =>
    have := lookup_mem hl
    exact (hwf.2 _ this).2.1

lemma edge_mem_src {g : Graph} (hwf : g.Wellformed) {u v : String} (h : Edge g u v) :
    u ∈ g.nodes := by
  unfold Edge Graph.succs at h
  cases hl : g.adj.lookup u with
  | none => rw [hl] at h; simp at h
  | some s =>
    have := lookup_mem hl
    exact (hwf.2 _ this).1

lemma edge_mem_tgt {g : Graph} (hwf : g.Wellformed) {u v : String} (h : Edge g u v) :
    v ∈ g.nodes := by
  unfold Edge Graph.succs at h
  cases hl : g.adj.lookup u with
  | none => rw [hl] at h; simp at h
  | some s =>
    have hm := lookup_mem hl
    rw [hl] at h
    simp only [Option.getD_some] at h
    exact (hwf.2 _ hm).2.2 h

lemma mem_preds {g : Graph} {u v : String} :
    u ∈ preds g v ↔ u ∈ g.nodes ∧ Edge g u v := by
  unfold preds
  rw [List.mem_filter]
  simp

lemma preds_nodup {g : Graph} (hwf : g.Wellformed) (v : String) : (preds g v).Nodup :=
  List.Nodup.filter _ hwf.1

lemma Path.snoc {g : Graph} {a b c : String} (hp : Path g a b) (he : Edge g b c) :
    Path g a c := by
  induction hp with
  | edge h => exact Path.cons h (Path.edge he)
  | cons h _ ih => exact Path.cons h (ih he)

lemma PathIn.toPath {g : Graph} {S : String → Prop} {a b : String}
    (hp : PathIn g S a b) : Path g a b := by
  induction hp with
  | edge _ _ h => exact Path.edge h
  | cons _ h _ ih => exact Path.cons h ih

lemma nodup_length_le {l1 l2 : List String} (h1 : l1.Nodup) (hs : l1 ⊆ l2) :
    l1.length ≤ l2.length := by
  have h3 : l1.toFinset ⊆ l2.toFinset := by
    intro a ha
    simp only [List.mem_toFinset] at *
    exact hs ha
  have := Finset.card_le_card h3
  rw [List.toFinset_card_of_nodup h1] at this
  exact this.trans (List.toFinset_card_le l2)

lemma nodup_length_lt {l1 l2 : List String} (h1 : l1.Nodup) (hs : l1 ⊆ l2)
    {a : String} (ha : a ∈ l2) (hna : a ∉ l1) : l1.length < l2.length := by
  have h3 : l1.toFinset ⊂ l2.toFinset := by
    constructor
    · intro x hx
      simp only [List.mem_toFinset] at *
      exact hs hx
    · intro hc
      exact hna (by simpa using hc (List.mem_toFinset.mpr ha))
  have := Finset.card_lt_card h3
  rw [List.toFinset_card_of_nodup h1] at this
  exact this.trans_le (List.toFinset_card_le l2)

lemma PathIn.mono {g : Graph} {S T : String → Prop} (hst : ∀ x, S x → T x)
    {a b : String} (hp : PathIn g S a b) : PathIn g T a b := by
  induction hp with
  | edge hu hv h => exact PathIn.edge (hst _ hu) (hst _ hv) h
  | cons hu h _ ih => exact PathIn.cons (hst _ hu) h ih

/-- In a finite vertex set where every vertex has a predecessor inside
the set, some vertex lies on a cycle inside the set. -/
lemma cycle_of_all_have_pred (g : Graph) (R : List String) (hne : R ≠ [])
    (h : ∀ v ∈ R, ∃ u, u ∈ R ∧ Edge g u v) :
    ∃ w, w ∈ R ∧ PathIn g (fun x => x ∈ R) w w := by
  classical
  let f : String → String := fun v => if hv : v ∈ R then (h v hv).choose else v
  have hf : ∀ v ∈ R, f v ∈ R ∧ Edge g (f v) v := by
    intro v hv
    simp only [f, dif_pos hv]
    exact (h v hv).choose_spec
  let seq : Nat → String := fun n => f^[n] (R.head hne)
  have hseq : ∀ n, seq n ∈ R := by
    intro n
    induction n with
    | zero => exact List.head_mem hne
    | succ n ihn =>
      show f^[n + 1] (R.head hne) ∈ R
      rw [Function.iterate_succ_apply']
      exact (hf _ ihn).1
  have hedge : ∀ n, Edge g (seq (n + 1)) (seq n) := by
    intro n
    show Edge g (f^[n + 1] (R.head hne)) (seq n)
    rw [Function.iterate_succ_apply']
    exact (hf _ (hseq n)).2
  have hpath : ∀ d i : Nat, PathIn g (fun x => x ∈ R) (seq (i + d + 1)) (seq i) := by
    intro d
    induction d with
    | zero => exact fun i => PathIn.edge (hseq _) (hseq _) (hedge i)
    | succ d ihd =>
      intro i
      exact PathIn.cons (hseq _) (hedge (i + d + 1)) (ihd i)
  obtain ⟨i, hi, j, hj, hij, hmap⟩ :=
    Finset.exists_ne_map_eq_of_card_lt_of_maps_to
      (s := Finset.range (R.length + 1)) (t := R.toFinset)
      (by
        rw [Finset.card_range]
        exact Nat.lt_succ_of_le (List.toFinset_card_le R))
      (fun a _ => List.mem_toFinset.mpr (hseq a))
  rcases Nat.lt_or_ge i j with hlt | hge
  · have hd : j = i + (j - i - 1) + 1 := by omega
    have hp2 := hpath (j - i - 1) i
    rw [← hd] at hp2
    rw [← hmap] at hp2
    exact ⟨seq i, hseq i, hp2⟩
  · have hlt2 : j < i := by omega
    have hd : i = j + (i - j - 1) + 1 := by omega
    have hp2 := hpath (i - j - 1) j
    rw [← hd] at hp2
    rw [hmap] at hp2
    exact ⟨seq j, hseq j, hp2⟩

/-! ### Kahn counter lemmas -/

lemma kahnCnt_zero_iff {g : Graph} {order : List String} {v : String} :
    kahnCnt g order v = 0 ↔ ∀ u ∈ preds g v, u ∈ order := by
  unfold kahnCnt
  rw [List.length_eq_zero, List.filter_eq_nil_iff]
  simp

lemma kahnCnt_empty (g : Graph) (v : String) : kahnCnt g [] v = indeg0 g v := by
  unfold kahnCnt indeg0
  congr 1
  apply List.filter_eq_self.mpr
  simp

lemma kahnCnt_pos {g : Graph} {order : List String} {x v : String}
    (hx : x ∈ preds g v) (hxo : x ∉ order) : 0 < kahnCnt g order v := by
  unfold kahnCnt
  have : x ∈ (preds g v).filter (fun u => decide (u ∉ order)) :=
    List.mem_filter.mpr ⟨hx, by simpa using hxo⟩
  exact List.length_pos.mpr (List.ne_nil_of_mem this)

lemma kahnCnt_snoc {g : Graph} (hwf : g.Wellformed) {order : List String}
    {x : String} (hx : x ∉ order) (v : String) :
    kahnCnt g (order ++ [x]) v
      = if x ∈ preds g v then kahnCnt g order v - 1 else kahnCnt g order v := by
  unfold kahnCnt
  have h1 : (preds g v).filter (fun u => decide (u ∉ order ++ [x]))
      = ((preds g v).filter (fun u => decide (u ∉ order))).filter
          (fun u => decide (u ≠ x)) := by
    rw [List.filter_filter]
    apply List.filter_congr
    intro u _
    by_cases h2 : u = x
    · subst h2
      simp [hx]
    · by_cases h3 : u ∈ order <;> simp [h2, h3]
  rw [h1]
  set m := (preds g v).filter (fun u => decide (u ∉ order)) with hm
  have hmnd : m.Nodup := List.Nodup.filter _ (preds_nodup hwf v)
  by_cases hxp : x ∈ preds g v
  · rw [if_pos hxp]
    have hxm : x ∈ m := List.mem_filter.mpr ⟨hxp, by simpa using hx⟩
    have herase : m.filter (fun u => decide (u ≠ x)) = m.erase x := by
      rw [List.Nodup.erase_eq_filter hmnd]
      apply List.filter_congr
      intro u _
      by_cases h : u = x
      · subst h
        simp
      · simp [h]
    rw [herase, List.length_erase_of_mem hxm]
  · rw [if_neg hxp]
    congr 1
    apply List.filter_eq_self.mpr
    intro u hu
    have : u ∈ preds g v := List.mem_filter.mp hu |>.1
    simp only [decide_eq_true_eq]
    intro he
    exact hxp (he ▸ this)

/-! ### The Kahn loop invariant -/

lemma kahnInv_final {g : Graph} {indeg : String → Nat} {order : List String}
    (hinv : KahnInv g indeg [] order) : KahnFinal g order := by
  obtain ⟨hnd, _, ho, _, _, hI6, hI7⟩ := hinv
  refine ⟨by simpa using hnd, ho, hI7, ?_⟩
  intro v hv hvo hc
  have := hI6 v hv hvo hc
  simp at this

lemma kahnInv_step {g : Graph} (hwf : g.Wellformed) {indeg : String → Nat}
    {v : String} {queue2 order : List String}
    (hinv : KahnInv g indeg (v :: queue2) order) :
    KahnInv g (fun w => if w ∈ g.succs v then indeg w - 1 else indeg w)
      (queue2 ++ sortIds ((g.succs v).filter (fun w => decide (indeg w = 1))))
      (order ++ [v]) := by
  obtain ⟨hnd, hq, ho, hI4, hI5, hI6, hI7⟩ := hinv
  obtain ⟨hond, hvqnd, hdisj⟩ := List.nodup_append.mp hnd
  have hvn : v ∈ g.nodes := hq (by simp)
  have hvo : v ∉ order := fun hc => hdisj hc (by simp)
  have hvq2 : v ∉ queue2 := (List.nodup_cons.mp hvqnd).1
  have hq2nd : queue2.Nodup := (List.nodup_cons.mp hvqnd).2
  have hpv : ∀ u, Edge g u v → u ∈ order := hI4 v (by simp)
  set newly := (g.succs v).filter (fun w => decide (indeg w = 1)) with hnewly
  have hnewnd : newly.Nodup := List.Nodup.filter _ (succs_nodup hwf v)
  have hnew : ∀ w ∈ newly, Edge g v w ∧ indeg w = 1 := by
    intro w hw
    have h2 := List.mem_filter.mp hw
    exact ⟨h2.1, by simpa using h2.2⟩
  have hnew_not_order : ∀ w ∈ newly, w ∉ order := by
    intro w hw hc
    exact hvo (hI7 v w (hnew w hw).1 hc).1
  have hnew_nodes : ∀ w ∈ newly, w ∈ g.nodes :=
    fun w hw => edge_mem_tgt hwf (hnew w hw).1
  have hnew_ne_v : ∀ w ∈ newly, w ≠ v := by
    intro w hw hc
    subst hc
    exact hvo (hpv w (hnew w hw).1)
  have hnew_cnt1 : ∀ w ∈ newly, kahnCnt g order w = 1 := by
    intro w hw
    rw [← hI5 w (hnew_nodes w hw) (hnew_not_order w hw)]
    exact (hnew w hw).2
  have hnew_not_queue : ∀ w ∈ newly, w ∉ queue2 := by
    intro w hw hc
    have h0 : kahnCnt g order w = 0 :=
      kahnCnt_zero_iff.mpr (fun u hu => hI4 w (by simp [hc]) u (mem_preds.mp hu).2)
    have h1 := hnew_cnt1 w hw
    omega
  have hvpreds : ∀ w, v ∈ preds g w ↔ Edge g v w :=
    fun w => ⟨fun h => (mem_preds.mp h).2, fun h => mem_preds.mpr ⟨hvn, h⟩⟩
  have hmem_sorted : ∀ w, w ∈ sortIds newly ↔ w ∈ newly := fun w => mem_sortIds w newly
  refine ⟨?_, ?_, ?_, ?_, ?_, ?_, ?_⟩
  · rw [List.nodup_append]
    refine ⟨?_, ?_, ?_⟩
    · rw [List.nodup_append]
      refine ⟨hond, by simp, ?_⟩
      intro x hx hx2
      simp only [List.mem_singleton] at hx2
      subst hx2
      exact hvo hx
    · rw [List.nodup_append]
      refine ⟨hq2nd, sortIds_nodup newly hnewnd, ?_⟩
      intro x hx hx2
      exact hnew_not_queue x ((hmem_sorted x).mp hx2) hx
    · intro x hx hx2
      rcases List.mem_append.mp hx with hxo | hxv
      · rcases List.mem_append.mp hx2 with hxq | hxs
        · exact hdisj hxo (by simp [hxq])
        · exact hnew_not_order x ((hmem_sorted x).mp hxs) hxo
      · simp only [List.mem_singleton] at hxv
        subst hxv
        rcases List.mem_append.mp hx2 with hxq | hxs
        · exact hvq2 hxq
        · exact hnew_ne_v x ((hmem_sorted x).mp hxs) rfl
  · intro x hx
    rcases List.mem_append.mp hx with hxq | hxs
    · exact hq (by simp [hxq])
    · exact hnew_nodes x ((hmem_sorted x).mp hxs)
  · intro x hx
    rcases List.mem_append.mp hx with hxo | hxv
    · exact ho hxo
    · simp only [List.mem_singleton] at hxv
      subst hxv
      exact hvn
  · intro w hw u hedge
    rcases List.mem_append.mp hw with hwq | hws
    · exact List.mem_append_left _ (hI4 w (by simp [hwq]) u hedge)
    · have hwnew := (hmem_sorted w).mp hws
      have hc0 : kahnCnt g (order ++ [v]) w = 0 := by
        rw [kahnCnt_snoc hwf hvo w, if_pos ((hvpreds w).mpr (hnew w hwnew).1),
          hnew_cnt1 w hwnew]
      exact kahnCnt_zero_iff.mp hc0 u (mem_preds.mpr ⟨edge_mem_src hwf hedge, hedge⟩)
  · intro w hwn hwo2
    have ha : w ∉ order := fun hc => hwo2 (List.mem_append_left _ hc)
    show (if w ∈ g.succs v then indeg w - 1 else indeg w) = kahnCnt g (order ++ [v]) w
    rw [kahnCnt_snoc hwf hvo w]
    by_cases hsw : w ∈ g.succs v
    · rw [if_pos hsw, if_pos ((hvpreds w).mpr hsw), hI5 w hwn ha]
    · rw [if_neg hsw, if_neg (fun hc => hsw ((hvpreds w).mp hc))]
      exact hI5 w hwn ha
  · intro w hwn hwo2 hcnt0
    have ha : w ∉ order := fun hc => hwo2 (List.mem_append_left _ hc)
    have hb : w ≠ v := by
      intro hc
      subst hc
      exact hwo2 (List.mem_append_right _ (by simp))
    rw [kahnCnt_snoc hwf hvo w] at hcnt0
    by_cases hvp : v ∈ preds g w
    · rw [if_pos hvp] at hcnt0
      by_cases hc0 : kahnCnt g order w = 0
      · have := hI6 w hwn ha hc0
        rcases List.mem_cons.mp this with hc | hc
        · exact absurd hc hb
        · exact List.mem_append_left _ hc
      · have hpos := kahnCnt_pos hvp hvo
        have hc1 : kahnCnt g order w = 1 := by omega
        have hindeg : indeg w = 1 := by rw [hI5 w hwn ha]; exact hc1
        have : w ∈ newly :=
          List.mem_filter.mpr ⟨(hvpreds w).mp hvp, by simpa using hindeg⟩
        exact List.mem_append_right _ ((hmem_sorted w).mpr this)
    · rw [if_neg hvp] at hcnt0
      have := hI6 w hwn ha hcnt0
      rcases List.mem_cons.mp this with hc | hc
      · exact absurd hc hb
      · exact List.mem_append_left _ hc
  · intro u w hedge hw2
    rcases List.mem_append.mp hw2 with hwo | hwv
    · obtain ⟨hu, hidx⟩ := hI7 u w hedge hwo
      refine ⟨List.mem_append_left _ hu, ?_⟩
      rw [List.indexOf_append_of_mem hu, List.indexOf_append_of_mem hwo]
      exact hidx
    · simp only [List.mem_singleton] at hwv
      subst hwv
      have hu : u ∈ order := hpv u hedge
      refine ⟨List.mem_append_left _ hu, ?_⟩
      rw [List.indexOf_append_of_mem hu, List.indexOf_append_of_not_mem hvo]
      have : order.indexOf u < order.length := List.indexOf_lt_length.mpr hu
      simpa using this

lemma kahnLoop_final {g : Graph} (hwf : g.Wellformed) :
    ∀ (fuel : Nat) (indeg : String → Nat) (queue order : List String),
      KahnInv g indeg queue order →
      g.nodes.length ≤ fuel + order.length →
      KahnFinal g (kahnLoop g fuel indeg queue order) := by
  intro fuel
  induction fuel with
  | zero =>
    intro indeg queue order hinv hfuel
    have hqe : queue = [] := by
      obtain ⟨hnd, hq, ho, _, _, _, _⟩ := hinv
      rcases queue with _ | ⟨x, xs⟩
      · rfl
      · exfalso
        have hsub : (order ++ x :: xs) ⊆ g.nodes := by
          intro a ha
          rcases List.mem_append.mp ha with h1 | h1
          · exact ho h1
          · exact hq h1
        have := nodup_length_le hnd hsub
        simp only [List.length_append, List.length_cons] at this
        omega
    subst hqe
    exact kahnInv_final hinv
  | succ fuel ih =>
    intro indeg queue order hinv hfuel
    rcases queue with _ | ⟨v, queue2⟩
    · exact kahnInv_final hinv
    · show KahnFinal g (kahnLoop g fuel
        (fun w => if w ∈ g.succs v then indeg w - 1 else indeg w)
        (queue2 ++ sortIds ((g.succs v).filter (fun w => decide (indeg w = 1))))
        (order ++ [v]))
      apply ih _ _ _ (kahnInv_step hwf hinv)
      simp only [List.length_append, List.length_singleton]
      omega

lemma kahnInit (g : Graph) (hwf : g.Wellformed) :
    KahnInv g (indeg0 g)
      (sortIds (g.nodes.filter (fun v => decide (indeg0 g v = 0)))) [] := by
  set queue0 := sortIds (g.nodes.filter (fun v => decide (indeg0 g v = 0))) with hq0
  have hmem : ∀ x, x ∈ queue0 ↔ x ∈ g.nodes ∧ indeg0 g x = 0 := by
    intro x
    rw [hq0, mem_sortIds, List.mem_filter]
    simp
  refine ⟨?_, ?_, by simp, ?_, ?_, ?_, by simp⟩
  · simp only [List.nil_append]
    exact sortIds_nodup _ (List.Nodup.filter _ hwf.1)
  · exact fun x hx => ((hmem x).mp hx).1
  · intro v hv u hedge
    exfalso
    have h0 : indeg0 g v = 0 := ((hmem v).mp hv).2
    have hu : u ∈ preds g v := mem_preds.mpr ⟨edge_mem_src hwf hedge, hedge⟩
    unfold indeg0 at h0
    rw [List.length_eq_zero] at h0
    rw [h0] at hu
    simp at hu
  · intro v _ _
    exact (kahnCnt_empty g v).symm
  · intro v hv _ hc
    rw [kahnCnt_empty g v] at hc
    exact (hmem v).mpr ⟨hv, hc⟩

/-- The emitted order of the scheduler satisfies the final facts. -/
lemma topo_final (g : Graph) (hwf : g.Wellformed) :
    KahnFinal g (topologicalSchedule g).1 := by
  show KahnFinal g (kahnLoop g g.nodes.length (indeg0 g)
    (sortIds (g.nodes.filter (fun v => decide (indeg0 g v = 0)))) [])
  apply kahnLoop_final hwf _ _ _ _ (kahnInit g hwf)
  simp

lemma kahnFinal_path_lt {g : Graph} {res : List String} (hfin : KahnFinal g res)
    {a b : String} (hp : Path g a b) (hb : b ∈ res) :
    a ∈ res ∧ res.indexOf a < res.indexOf b := by
  induction hp with
  | edge h => exact hfin.2.2.1 _ _ h hb
  | cons h _ ih =>
    obtain ⟨hv, hivb⟩ := ih hb
    obtain ⟨ha2, hiav⟩ := hfin.2.2.1 _ _ h hv
    exact ⟨ha2, lt_trans hiav hivb⟩

lemma kahnFinal_cycle_not_mem {g : Graph} {res : List String} (hfin : KahnFinal g res)
    {u : String} (hp : Path g u u) : u ∉ res :=
  fun hc => absurd (kahnFinal_path_lt hfin hp hc).2 (lt_irrefl _)

lemma path_src_mem {g : Graph} (hwf : g.Wellformed) {a b : String} (hp : Path g a b) :
    a ∈ g.nodes := by
  cases hp with
  | edge h => exact edge_mem_src hwf h
  | cons h _ => exact edge_mem_src hwf h

lemma kahnFinal_complete {g : Graph} (hwf : g.Wellformed) {res : List String}
    (hfin : KahnFinal g res) (hacyc : Acyclic g) : ∀ v ∈ g.nodes, v ∈ res := by
  by_contra hc
  push_neg at hc
  obtain ⟨v, hv, hvr⟩ := hc
  set R := g.nodes.filter (fun x => decide (x ∉ res)) with hR
  have hvR : v ∈ R := List.mem_filter.mpr ⟨hv, by simpa using hvr⟩
  have hpred : ∀ w ∈ R, ∃ u, u ∈ R ∧ Edge g u w := by
    intro w hw
    obtain ⟨hwn, hwr⟩ := List.mem_filter.mp hw
    have hcnt := hfin.2.2.2 w hwn (by simpa using hwr)
    have hne : ((preds g w).filter (fun u => decide (u ∉ res))) ≠ [] := by
      intro h0
      apply hcnt
      unfold kahnCnt
      rw [h0]
      rfl
    obtain ⟨u, hu⟩ := List.exists_mem_of_ne_nil _ hne
    obtain ⟨hup, hur⟩ := List.mem_filter.mp hu
    exact ⟨u, List.mem_filter.mpr ⟨(mem_preds.mp hup).1, hur⟩, (mem_preds.mp hup).2⟩
  obtain ⟨w, _, hpath⟩ := cycle_of_all_have_pred g R (List.ne_nil_of_mem hvR) hpred
  exact hacyc w hpath.toPath

/-- A schedule that emits every vertex certifies acyclicity. -/
lemma acyclic_of_complete {g : Graph} (hwf : g.Wellformed)
    (h : g.nodes.length ≤ (topologicalSchedule g).1.length) : Acyclic g := by
  intro u hp
  have hfin := topo_final g hwf
  have hu := kahnFinal_cycle_not_mem hfin hp
  have hun : u ∈ g.nodes := path_src_mem hwf hp
  have := nodup_length_lt hfin.1 hfin.2.1 hun hu
  omega

/-- C1: on every wellformed acyclic graph, the order the
TopologicalScheduler emits is a topological order — for every edge
`(u → v)` the index of `u` is strictly below the index of `v`. -/
theorem scheduler_topological_order (g : Graph) (hwf : g.Wellformed)
    (hacyc : Acyclic g) (u v : String) (he : Edge g u v) :
    (topologicalSchedule g).1.indexOf u < (topologicalSchedule g).1.indexOf v := by
  have hfin := topo_final g hwf
  have hv := kahnFinal_complete hwf hfin hacyc v (edge_mem_tgt hwf he)
  exact (hfin.2.2.1 u v he hv).2

/-- C1 witness: the scenario DAG, at the edge A → C. -/
theorem scheduler_topological_order_witness :
    exampleDag.Wellformed ∧ Acyclic exampleDag ∧ Edge exampleDag "A" "C" ∧
      (topologicalSchedule exampleDag).1.indexOf "A"
        < (topologicalSchedule exampleDag).1.indexOf "C" := by
  refine ⟨by decide, acyclic_of_complete (by decide) (by decide), by decide, ?_⟩
  exact scheduler_topological_order exampleDag (by decide)
    (acyclic_of_complete (by decide) (by decide)) "A" "C" (by decide)

lemma order_incomplete_of_cycle {g : Graph} (hwf : g.Wellformed) {u : String}
    (hp : Path g u u) : (topologicalSchedule g).1.length < g.nodes.length := by
  have hfin := topo_final g hwf
  exact nodup_length_lt hfin.1 hfin.2.1 (path_src_mem hwf hp)
    (kahnFinal_cycle_not_mem hfin hp)

/-- C6: the TopologicalScheduler is total — it raises nothing on cyclic
input.  On every graph containing a cycle it returns a partial order
shorter than the vertex count together with `hasCycle = true`, and the
emitted order is shorter than the vertex count exactly when a cycle
exists among the unvisited remainder. -/
theorem scheduler_cycle_as_data (g : Graph) (hwf : g.Wellformed) :
    ((∃ u, Path g u u) →
      (topologicalSchedule g).1.length < g.nodes.length ∧
        (topologicalSchedule g).2 = true) ∧
    ((topologicalSchedule g).1.length < g.nodes.length ↔
      ∃ u, u ∉ (topologicalSchedule g).1 ∧
        PathIn g (fun x => x ∉ (topologicalSchedule g).1) u u) := by
  have hfin := topo_final g hwf
  constructor
  · rintro ⟨u, hp⟩
    have hlen := order_incomplete_of_cycle hwf hp
    refine ⟨hlen, ?_⟩
    show decide ((topologicalSchedule g).1.length < g.nodes.length) = true
    exact decide_eq_true hlen
  · constructor
    · intro hlen
      have hex : ∃ v, v ∈ g.nodes ∧ v ∉ (topologicalSchedule g).1 := by
        by_contra hc
        push_neg at hc
        have hsub : g.nodes ⊆ (topologicalSchedule g).1 := fun a ha => hc a ha
        have := nodup_length_le hwf.1 hsub
        omega
      obtain ⟨v, hv, hvr⟩ := hex
      set res := (topologicalSchedule g).1 with hres
      set R := g.nodes.filter (fun x => decide (x ∉ res)) with hR
      have hvR : v ∈ R := List.mem_filter.mpr ⟨hv, by simpa using hvr⟩
      have hpred : ∀ w ∈ R, ∃ u, u ∈ R ∧ Edge g u w := by
        intro w hw
        obtain ⟨hwn, hwr⟩ := List.mem_filter.mp hw
        have hcnt := hfin.2.2.2 w hwn (by simpa using hwr)
        have hne : ((preds g w).filter (fun u => decide (u ∉ res))) ≠ [] := by
          intro h0
          apply hcnt
          unfold kahnCnt
          rw [h0]
          rfl
        obtain ⟨u, hu⟩ := List.exists_mem_of_ne_nil _ hne
        obtain ⟨hup, hur⟩ := List.mem_filter.mp hu
        exact ⟨u, List.mem_filter.mpr ⟨(mem_preds.mp hup).1, hur⟩, (mem_preds.mp hup).2⟩
      obtain ⟨w, hwR, hpath⟩ := cycle_of_all_have_pred g R (List.ne_nil_of_mem hvR) hpred
      refine ⟨w, ?_, ?_⟩
      · have := List.mem_filter.mp hwR
        simpa using this.2
      · apply hpath.mono
        intro x hx
        have := List.mem_filter.mp hx
        simpa using this.2
    · rintro ⟨u, hur, hpath⟩
      exact nodup_length_lt hfin.1 hfin.2.1 (path_src_mem hwf hpath.toPath) hur

/-- C6 witness: the two-vertex cycle X ↔ Y. -/
theorem scheduler_cycle_as_data_witness :
    exampleCycle.Wellformed ∧ Edge exampleCycle "X" "Y" ∧ Edge exampleCycle "Y" "X" ∧
      (topologicalSchedule exampleCycle).1.length < exampleCycle.nodes.length ∧
      (topologicalSchedule exampleCycle).2 = true := by
  have hwf : exampleCycle.Wellformed := by decide
  have hcyc : ∃ u, Path exampleCycle u u :=
    ⟨"X", Path.cons (u := "X") (v := "Y") (by decide) (Path.edge (by decide))⟩
  obtain ⟨h1, h2⟩ := (scheduler_cycle_as_data exampleCycle hwf).1 hcyc
  exact ⟨hwf, by decide, by decide, h1, h2⟩

/-! ### The three-color DFS -/

lemma chain_to_path {g : Graph} :
    ∀ (l : List String) (a b : String), List.Chain' (Edge g) (a :: l ++ [b]) →
      Path g a b := by
  intro l
  induction l with
  | nil =>
    intro a b h
    exact Path.edge ((List.chain'_cons.mp h).1)
  | cons c l ih =>
    intro a b h
    have h2 := List.chain'_cons.mp h
    exact Path.cons h2.1 (ih c b h2.2)

/-- A hit on a gray vertex closes a cycle: the gray stack is an edge
chain and the hit vertex occurs on it. -/
lemma gray_hit_cycle {g : Graph} {gray : List String} {u : String}
    (hchain : List.Chain' (Edge g) (gray ++ [u])) (hu : u ∈ gray) :
    ∃ w, Path g w w := by
  obtain ⟨s, t, rfl⟩ := List.append_of_mem hu
  have h1 : (s ++ u :: t) ++ [u] = s ++ (u :: (t ++ [u])) := by simp
  rw [h1] at hchain
  have h2 := (List.chain'_append.mp hchain).2.1
  exact ⟨u, chain_to_path t u u h2⟩

/-- Propagate an arbitrary conclusion `C` out of a fold that stopped at a
back edge, given that each single visit with a `some` result yields `C`. -/
lemma dfsFold_some_ex {visit1 : List String → String → List String × Option (List String)}
    {C : Prop} :
    ∀ (l : List String) (black black2 : List String) (ms : List String),
      (∀ b x b2 ms2, x ∈ l → visit1 b x = (b2, some ms2) → C) →
      dfsFold visit1 black l = (black2, some ms) → C := by
  intro l
  induction l with
  | nil =>
    intro black black2 ms _ hr
    simp [dfsFold] at hr
  | cons u us ih =>
    intro black black2 ms h hr
    rcases hvu : visit1 black u with ⟨b2, r⟩
    cases r with
    | some m2 => exact h black u b2 m2 (by simp) hvu
    | none =>
      rw [dfsFold, hvu] at hr
      exact ih b2 black2 ms (fun b x bb mm hx => h b x bb mm (by simp [hx])) hr

/-- A visit that detects a back edge witnesses a cycle, provided the gray
stack extended by the visited vertex is an edge chain. -/
lemma dfsNode_some_cycle (g : Graph) :
    ∀ (fuel : Nat) (gray : List String) (u : String) (black black2 ms : List String),
      List.Chain' (Edge g) (gray ++ [u]) →
      dfsNode g fuel black gray u = (black2, some ms) →
      ∃ w, Path g w w := by
  intro fuel
  induction fuel with
  | zero =>
    intro gray u black black2 ms hchain hr
    rw [dfsNode] at hr
    by_cases hb : u ∈ black
    · rw [if_pos hb] at hr
      simp at hr
    · rw [if_neg hb] at hr
      by_cases hg : u ∈ gray
      · exact gray_hit_cycle hchain hg
      · rw [if_neg hg] at hr
        simp at hr
  | succ fuel ih =>
    intro gray u black black2 ms hchain hr
    rw [dfsNode] at hr
    by_cases hb : u ∈ black
    · rw [if_pos hb] at hr
      simp at hr
    · rw [if_neg hb] at hr
      by_cases hg : u ∈ gray
      · exact gray_hit_cycle hchain hg
      · rw [if_neg hg] at hr
        rcases hfold : dfsFold (fun b x => dfsNode g fuel b (gray ++ [u]) x) black
            (g.succs u) with ⟨bf, rf⟩
        rw [hfold] at hr
        cases rf with
        | some mf =>
          apply dfsFold_some_ex (g.succs u) black bf mf _ hfold
          intro b x b2 ms2 hx hvx
          have hchain2 : List.Chain' (Edge g) ((gray ++ [u]) ++ [x]) := by
            rw [List.chain'_append]
            refine ⟨hchain, List.chain'_singleton x, ?_⟩
            intro p hp y hy
            simp only [List.getLast?_concat, Option.mem_def, Option.some.injEq] at hp
            simp only [List.head?_cons, Option.mem_def, Option.some.injEq] at hy
            subst hp
            subst hy
            exact hx
          exact ih (gray ++ [u]) x b b2 ms2 hchain2 hvx
        | none => simp at hr

/-- Fold postcondition combinator: `InvA` is maintained by every visit,
`InvB` along visits that find no back edge. -/
lemma dfsFold_post (visit1 : List String → String → List String × Option (List String))
    (InvA InvB : List String → Prop) :
    ∀ (l : List String),
      (∀ b x, x ∈ l → InvA b → InvB b →
        InvA (visit1 b x).1 ∧ b <+: (visit1 b x).1 ∧
          ((visit1 b x).2 = none → x ∈ (visit1 b x).1 ∧ InvB (visit1 b x).1)) →
      ∀ black, InvA black → InvB black →
        InvA (dfsFold visit1 black l).1 ∧ black <+: (dfsFold visit1 black l).1 ∧
          ((dfsFold visit1 black l).2 = none →
            InvB (dfsFold visit1 black l).1 ∧
              ∀ x ∈ l, x ∈ (dfsFold visit1 black l).1) := by
  intro l
  induction l with
  | nil =>
    intro _ black hA hB
    refine ⟨hA, List.prefix_rfl, ?_⟩
    intro _
    exact ⟨hB, by simp⟩
  | cons u us ih =>
    intro hv black hA hB
    obtain ⟨hA1, hpre1, hnone1⟩ := hv black u (by simp) hA hB
    rcases hvu : visit1 black u with ⟨b2, r⟩
    rw [hvu] at hA1 hpre1 hnone1
    cases r with
    | some m2 =>
      rw [dfsFold, hvu]
      exact ⟨hA1, hpre1, by simp⟩
    | none =>
      obtain ⟨humem, hB1⟩ := hnone1 rfl
      rw [dfsFold, hvu]
      obtain ⟨hA2, hpre2, hnone2⟩ :=
        ih (fun b x hx hA3 hB3 => hv b x (by simp [hx]) hA3 hB3) b2 hA1 hB1
      refine ⟨hA2, hpre1.trans hpre2, ?_⟩
      intro hnone
      obtain ⟨hB2, hmem2⟩ := hnone2 hnone
      refine ⟨hB2, ?_⟩
      intro x hx
      rcases List.mem_cons.mp hx with rfl | hxs
      · exact hpre2.subset humem
      · exact hmem2 x hxs

/-- Main postcondition of a single DFS visit: the black list only grows,
never intersects the gray stack, and — when no back edge was met — ends
up containing the visited vertex and edge-sorted. -/
lemma dfsNode_post (g : Graph) (hwf : g.Wellformed) :
    ∀ (fuel : Nat) (gray : List String) (u : String) (black : List String),
      gray.Nodup → gray ⊆ g.nodes → u ∈ g.nodes →
      g.nodes.length ≤ fuel + gray.length →
      (∀ y ∈ black, y ∉ gray) → BlackSorted g black →
      (∀ y ∈ (dfsNode g fuel black gray u).1, y ∉ gray) ∧
        black <+: (dfsNode g fuel black gray u).1 ∧
        ((dfsNode g fuel black gray u).2 = none →
          u ∈ (dfsNode g fuel black gray u).1 ∧
            BlackSorted g (dfsNode g fuel black gray u).1) := by
  intro fuel
  induction fuel with
  | zero =>
    intro gray u black hgnd hgsub hun hfuel hdisj hbs
    rw [dfsNode]
    by_cases hb : u ∈ black
    · rw [if_pos hb]
      exact ⟨hdisj, List.prefix_rfl, fun _ => ⟨hb, hbs⟩⟩
    · rw [if_neg hb]
      by_cases hg : u ∈ gray
      · rw [if_pos hg]
        exact ⟨hdisj, List.prefix_rfl, by simp⟩
      · exfalso
        have := nodup_length_lt hgnd hgsub hun hg
        omega
  | succ fuel ih =>
    intro gray u black hgnd hgsub hun hfuel hdisj hbs
    rw [dfsNode]
    by_cases hb : u ∈ black
    · rw [if_pos hb]
      exact ⟨hdisj, List.prefix_rfl, fun _ => ⟨hb, hbs⟩⟩
    · rw [if_neg hb]
      by_cases hg : u ∈ gray
      · rw [if_pos hg]
        exact ⟨hdisj, List.prefix_rfl, by simp⟩
      · rw [if_neg hg]
        have hgnd2 : (gray ++ [u]).Nodup := by
          rw [List.nodup_append]
          exact ⟨hgnd, by simp, fun x hx hx2 => hg (by
            simp only [List.mem_singleton] at hx2
            exact hx2 ▸ hx)⟩
        have hgsub2 : (gray ++ [u]) ⊆ g.nodes := by
          intro x hx
          rcases List.mem_append.mp hx with h1 | h1
          · exact hgsub h1
          · simp only [List.mem_singleton] at h1
            exact h1 ▸ hun
        obtain ⟨hA2, hpre2, hnone2⟩ :=
          dfsFold_post (fun b x => dfsNode g fuel b (gray ++ [u]) x)
            (fun b => ∀ y ∈ b, y ∉ gray ++ [u]) (BlackSorted g) (g.succs u)
            (by
              intro b x hx hA hB
              exact ih (gray ++ [u]) x b hgnd2 hgsub2
                (edge_mem_tgt hwf (show Edge g u x from hx))
                (by simp only [List.length_append, List.length_singleton]; omega)
                hA hB)
            black
            (by
              intro y hy
              rw [List.mem_append]
              push_neg
              refine ⟨hdisj y hy, ?_⟩
              simp only [List.mem_singleton]
              intro hc
              exact hb (hc ▸ hy))
            hbs
        rcases hfold : dfsFold (fun b x => dfsNode g fuel b (gray ++ [u]) x) black
            (g.succs u) with ⟨bf, rf⟩
        rw [hfold] at hA2 hpre2 hnone2
        cases rf with
        | some mf =>
          refine ⟨?_, hpre2, by simp⟩
          intro y hy
          have := hA2 y hy
          rw [List.mem_append] at this
          push_neg at this
          exact this.1
        | none =>
          obtain ⟨hBf, hmemf⟩ := hnone2 rfl
          have hunb : u ∉ bf := by
            intro hc
            have := hA2 u hc
            simp at this
          refine ⟨?_, ?_, ?_⟩
          · intro y hy
            rcases List.mem_append.mp hy with h1 | h1
            · have := hA2 y h1
              rw [List.mem_append] at this
              push_neg at this
              exact this.1
            · simp only [List.mem_singleton] at h1
              exact h1 ▸ hg
          · exact hpre2.trans (List.prefix_append bf [u])
          · intro _
            refine ⟨by simp, ?_⟩
            intro a ha v hav
            rcases List.mem_append.mp ha with h1 | h1
            · obtain ⟨hv2, hidx⟩ := hBf a h1 v hav
              refine ⟨List.mem_append_left _ hv2, ?_⟩
              rw [List.indexOf_append_of_mem hv2, List.indexOf_append_of_mem h1]
              exact hidx
            · simp only [List.mem_singleton] at h1
              subst h1
              have hv2 : v ∈ bf := hmemf v hav
              refine ⟨List.mem_append_left _ hv2, ?_⟩
              rw [List.indexOf_append_of_mem hv2, List.indexOf_append_of_not_mem hunb]
              have : bf.indexOf v < bf.length := List.indexOf_lt_length.mpr hv2
              simpa using this

lemma blackSorted_path {g : Graph} {black : List String} (hbs : BlackSorted g black)
    {a b : String} (hp : Path g a b) (ha : a ∈ black) :
    b ∈ black ∧ black.indexOf b < black.indexOf a := by
  induction hp with
  | edge h => exact hbs _ ha _ h
  | cons h _ ih =>
    obtain ⟨hv, hidx⟩ := hbs _ ha _ h
    obtain ⟨hb2, hidx2⟩ := ih hv
    exact ⟨hb2, lt_trans hidx2 hidx⟩

/-- If the detector reports no cycle, the graph is acyclic. -/
lemma cycleDetector_false_acyclic (g : Graph) (hwf : g.Wellformed)
    (h : (cycleDetector g).1 = false) : Acyclic g := by
  rcases hrun : dfsFold (fun b u => dfsNode g g.nodes.length b [] u) []
      (sortIds g.nodes) with ⟨bF, r⟩
  cases r with
  | some ms =>
    exfalso
    rw [cycleDetector, hrun] at h
    simp at h
  | none =>
    obtain ⟨_, _, hnone⟩ :=
      dfsFold_post (fun b u => dfsNode g g.nodes.length b [] u)
        (fun b => ∀ y ∈ b, y ∉ ([] : List String)) (BlackSorted g) (sortIds g.nodes)
        (by
          intro b x hx hA hB
          exact dfsNode_post g hwf g.nodes.length [] x b (by simp) (by simp)
            ((mem_sortIds x g.nodes).mp hx) (by simp) hA hB)
        [] (by simp) (by intro a ha v hav; simp at ha)
    rw [hrun] at hnone
    obtain ⟨hBS, hmem⟩ := hnone rfl
    intro u hp
    have hu : u ∈ bF := hmem u ((mem_sortIds u g.nodes).mpr (path_src_mem hwf hp))
    exact absurd (blackSorted_path hBS hp hu).2 (lt_irrefl _)

/-- If the graph has a cycle, the detector reports it. -/
lemma cycleDetector_true_of_cycle (g : Graph) (hwf : g.Wellformed)
    (hcyc : ∃ u, Path g u u) : (cycleDetector g).1 = true := by
  cases h : (cycleDetector g).1 with
  | true => rfl
  | false =>
    obtain ⟨u, hp⟩ := hcyc
    exact absurd hp (cycleDetector_false_acyclic g hwf h u)

/-- C2: the CycleDetector reports `hasCycle = true` on every wellformed
graph containing a directed cycle and `hasCycle = false` on every
acyclic one; on the empty graph it returns `(false, ∅)`. -/
theorem cycle_detector_correct (g : Graph) (hwf : g.Wellformed) :
    ((∃ u, Path g u u) → (cycleDetector g).1 = true) ∧
    (Acyclic g → (cycleDetector g).1 = false) ∧
    cycleDetector emptyGraph = (false, []) := by
  refine ⟨cycleDetector_true_of_cycle g hwf, ?_, rfl⟩
  intro hacyc
  cases h : (cycleDetector g).1 with
  | false => rfl
  | true =>
    exfalso
    rcases hrun : dfsFold (fun b u => dfsNode g g.nodes.length b [] u) []
        (sortIds g.nodes) with ⟨bF, r⟩
    cases r with
    | none =>
      rw [cycleDetector, hrun] at h
      simp at h
    | some ms =>
      obtain ⟨w, hp⟩ := dfsFold_some_ex (sortIds g.nodes) [] bF ms
        (fun b x b2 ms2 _ hvx =>
          dfsNode_some_cycle g g.nodes.length [] x b b2 ms2
            (by simpa using List.chain'_singleton x) hvx)
        hrun
      exact hacyc w hp

/-- C2 witness: X ↔ Y contains a cycle and the detector reports it. -/
theorem cycle_detector_correct_witness :
    exampleCycle.Wellformed ∧ (∃ u, Path exampleCycle u u) ∧
      (cycleDetector exampleCycle).1 = true ∧
      cycleDetector emptyGraph = (false, []) := by
  have hwf : exampleCycle.Wellformed := by decide
  have hcyc : ∃ u, Path exampleCycle u u :=
    ⟨"X", Path.cons (u := "X") (v := "Y") (by decide) (Path.edge (by decide))⟩
  have h := cycle_detector_correct exampleCycle hwf
  exact ⟨hwf, hcyc, h.1 hcyc, h.2.2⟩

/-- C3: on cyclic input the CriticalPathAnalyzer refuses to run and
signals `CyclicGraphError` (as a total function it can neither loop nor
return a path there); on the empty graph it returns the empty path
rather than an error. -/
theorem critical_path_cycle_error (g : Graph) (hwf : g.Wellformed) :
    ((∃ u, Path g u u) →
      ∃ ms, criticalPath g = .error (.cyclicGraph ms)) ∧
    criticalPath emptyGraph = .ok [] := by
  refine ⟨?_, rfl⟩
  intro hcyc
  have h1 := cycleDetector_true_of_cycle g hwf hcyc
  refine ⟨(cycleDetector g).2, ?_⟩
  rw [criticalPath, if_pos h1]

/-- C3 witness: the X ↔ Y scenario raises `CyclicGraphError`, the empty
graph yields the empty path. -/
theorem critical_path_cycle_error_witness :
    exampleCycle.Wellformed ∧
      (∃ ms, criticalPath exampleCycle = .error (.cyclicGraph ms)) ∧
      criticalPath emptyGraph = .ok [] := by
  have hwf : exampleCycle.Wellformed := by decide
  have h := critical_path_cycle_error exampleCycle hwf
  exact ⟨hwf, h.1 ⟨"X", Path.cons (u := "X") (v := "Y") (by decide)
    (Path.edge (by decide))⟩, h.2⟩

/-! ### ReadinessEvaluator -/

/-- C5: a task is marked ready iff its status is actionable and every id
in its `dependsOn` set resolves to a known task whose status is
terminal-complete; hence a task with no dependencies and actionable
status is always ready, and a task depending on an unresolvable id is
never ready (fail-closed). -/
theorem readiness_evaluator_contract (tasks : List Task) (t : Task) :
    (isReady tasks t = true ↔
      actionable t.status = true ∧
        ∀ d ∈ t.dependsOn, ∃ dt, findTask tasks d = some dt ∧
          terminalComplete dt.status = true) ∧
    (t.dependsOn = [] → actionable t.status = true → isReady tasks t = true) ∧
    (∀ d ∈ t.dependsOn, findTask tasks d = none → isReady tasks t = false) := by
  refine ⟨?_, ?_, ?_⟩
  · unfold isReady
    rw [Bool.and_eq_true, List.all_eq_true]
    constructor
    · rintro ⟨h1, h2⟩
      refine ⟨h1, ?_⟩
      intro d hd
      have h3 := h2 d hd
      cases hf : findTask tasks d with
      | none =>
        rw [hf] at h3
        simp at h3
      | some dt =>
        rw [hf] at h3
        exact ⟨dt, rfl, h3⟩
    · rintro ⟨h1, h2⟩
      refine ⟨h1, ?_⟩
      intro d hd
      obtain ⟨dt, hdt, hterm⟩ := h2 d hd
      rw [hdt]
      exact hterm
  · intro hdeps hact
    unfold isReady
    rw [hdeps]
    simp [hact]
  · intro d hd hnone
    have hall : (t.dependsOn.all (fun d2 =>
        match findTask tasks d2 with
        | some dt => terminalComplete dt.status
        | none => false)) = false := by
      rw [List.all_eq_false]
      refine ⟨d, hd, ?_⟩
      rw [hnone]
      simp
    unfold isReady
    rw [hall]
    simp

/-- C5 witness: task B of the scenario has no dependencies and is ready;
a task depending on the unknown id "nope" is not. -/
theorem readiness_evaluator_contract_witness :
    isReady exampleTasks ⟨"B", .pending, .medium, [], [], [], none⟩ = true ∧
      isReady exampleTasks ⟨"E", .pending, .low, ["nope"], [], [], none⟩ = false := by
  constructor
  · exact (readiness_evaluator_contract exampleTasks
      ⟨"B", .pending, .medium, [], [], [], none⟩).2.1 rfl rfl
  · exact (readiness_evaluator_contract exampleTasks
      ⟨"E", .pending, .low, ["nope"], [], [], none⟩).2.2 "nope" (by simp) (by decide)

/-! ### GraphBuilder and the duplicate-id gate -/

lemma firstDupId_none_iff (l : List String) : firstDupId l = none ↔ l.Nodup := by
  induction l with
  | nil => simp [firstDupId]
  | cons x xs ih =>
    rw [firstDupId]
    by_cases h : x ∈ xs
    · simp [h]
    · simp [h, ih]

/-- C7: an input containing two task records with the same id makes the
GraphBuilder fail fast with `DuplicateIdError`, and the analysis
pipeline consuming the builder output then produces no analysis result —
it propagates the same error. -/
theorem duplicate_id_fails_fast (tasks : List Task) (i j : Nat) (hij : i < j)
    (hj : j < tasks.length)
    (hdup : (tasks.get ⟨i, lt_trans hij hj⟩).id = (tasks.get ⟨j, hj⟩).id) :
    ∃ d, buildGraph tasks = .error (.duplicateId d) ∧
      runAnalyses tasks = .error (.duplicateId d) := by
  have hnotnodup : ¬ (tasks.map (fun t => t.id)).Nodup := by
    intro hnd
    have hinj := List.nodup_iff_injective_get.mp hnd
    have hi' : i < (tasks.map (fun t => t.id)).length := by simp; omega
    have hj' : j < (tasks.map (fun t => t.id)).length := by simp; omega
    have h1 : (tasks.map (fun t => t.id)).get ⟨i, hi'⟩
        = (tasks.map (fun t => t.id)).get ⟨j, hj'⟩ := by
      simp only [List.get_eq_getElem, List.getElem_map]
      simp only [List.get_eq_getElem] at hdup
      exact hdup
    have h2 := hinj h1
    simp only [Fin.mk.injEq] at h2
    omega
  cases hfd : firstDupId (tasks.map fun t => t.id) with
  | none => exact absurd ((firstDupId_none_iff _).mp hfd) hnotnodup
  | some d =>
    refine ⟨d, ?_, ?_⟩
    · rw [buildGraph, hfd]
    · rw [runAnalyses, buildGraph, hfd]
      rfl

/-- C7 witness: the duplicated-id task list is rejected. -/
theorem duplicate_id_fails_fast_witness :
    0 < 2 ∧ 2 < exampleDupTasks.length ∧
      (exampleDupTasks.get ⟨0, by decide⟩).id = (exampleDupTasks.get ⟨2, by decide⟩).id ∧
      ∃ d, buildGraph exampleDupTasks = .error (.duplicateId d) ∧
        runAnalyses exampleDupTasks = .error (.duplicateId d) := by
  refine ⟨by decide, by decide, by decide, ?_⟩
  exact duplicate_id_fails_fast exampleDupTasks 0 2 (by decide) (by decide) (by decide)

/-! ### ParallelGrouper leveling -/

lemma levelsAux_concat (tasks : List Task) :
    ∀ (a b : List String) (m : List (String × Nat)),
      levelsAux tasks m (a ++ b) = levelsAux tasks (levelsAux tasks m a) b := by
  intro a
  induction a with
  | nil => intro b m; rfl
  | cons t ts ih =>
    intro b m
    show levelsAux tasks (levelEntry tasks m t) (ts ++ b) = _
    rw [ih]
    rfl

lemma levelsAux_eq_append (tasks : List Task) :
    ∀ (l : List String) (m : List (String × Nat)),
      ∃ d, levelsAux tasks m l = m ++ d := by
  intro l
  induction l with
  | nil => exact fun m => ⟨[], by simp [levelsAux]⟩
  | cons t ts ih =>
    intro m
    obtain ⟨d2, hd2⟩ := ih (levelEntry tasks m t)
    exact ⟨[(t, 1 + ((depsOf tasks t).map
        (fun d => (m.lookup d).getD 0)).foldr max 0)] ++ d2, by
      show levelsAux tasks (levelEntry tasks m t) ts = _
      rw [hd2, levelEntry, List.append_assoc]⟩

lemma lookup_append_some {m d : List (String × Nat)} {k : String} {v : Nat}
    (h : m.lookup k = some v) : (m ++ d).lookup k = some v := by
  induction m with
  | nil => simp [List.lookup] at h
  | cons p ps ih =>
    obtain ⟨k1, v1⟩ := p
    by_cases hk : k = k1
    · subst hk
      simp [List.lookup] at h ⊢
      exact h
    · have hki : (k == k1) = false := beq_eq_false_iff_ne.mpr hk
      simp [List.lookup, hki] at h ⊢
      exact ih h

lemma lookup_append_none {m d : List (String × Nat)} {k : String}
    (h : m.lookup k = none) : (m ++ d).lookup k = d.lookup k := by
  induction m with
  | nil => simp
  | cons p ps ih =>
    obtain ⟨k1, v1⟩ := p
    by_cases hk : k = k1
    · subst hk
      simp only [List.lookup, beq_self_eq_true] at h
      exact absurd h (by simp)
    · have hki : (k == k1) = false := beq_eq_false_iff_ne.mpr hk
      simp only [List.cons_append, List.lookup, hki] at h ⊢
      exact ih h

lemma levelsAux_keys (tasks : List Task) :
    ∀ (l : List String) (m : List (String × Nat)),
      (levelsAux tasks m l).map Prod.fst = m.map Prod.fst ++ l := by
  intro l
  induction l with
  | nil => intro m; simp [levelsAux]
  | cons t ts ih =>
    intro m
    show (levelsAux tasks (levelEntry tasks m t) ts).map Prod.fst = _
    rw [ih, levelEntry]
    simp

lemma lookup_none_of_not_mem_keys {m : List (String × Nat)} {k : String}
    (h : k ∉ m.map Prod.fst) : m.lookup k = none := by
  induction m with
  | nil => rfl
  | cons p ps ih =>
    obtain ⟨k1, v1⟩ := p
    simp only [List.map_cons, List.mem_cons] at h
    push_neg at h
    have hki : (k == k1) = false := beq_eq_false_iff_ne.mpr h.1
    simp only [List.lookup, hki]
    exact ih h.2

lemma lookup_some_of_mem_keys {m : List (String × Nat)} {k : String}
    (h : k ∈ m.map Prod.fst) : ∃ v, m.lookup k = some v := by
  induction m with
  | nil => simp at h
  | cons p ps ih =>
    obtain ⟨k1, v1⟩ := p
    by_cases hk : k = k1
    · subst hk
      exact ⟨v1, by simp [List.lookup]⟩
    · have hki : (k == k1) = false := beq_eq_false_iff_ne.mpr hk
      simp only [List.map_cons, List.mem_cons] at h
      rcases h with h1 | h1
      · exact absurd h1 hk
      · obtain ⟨v, hv⟩ := ih h1
        exact ⟨v, by simp [List.lookup, hki, hv]⟩

lemma le_foldr_max {a : Nat} {l : List Nat} (h : a ∈ l) : a ≤ l.foldr max 0 := by
  induction l with
  | nil => simp at h
  | cons b bs ih =>
    rcases List.mem_cons.mp h with rfl | h2
    · simp [List.foldr]
    · simp only [List.foldr]
      exact le_max_of_le_right (ih h2)

lemma mem_take_of_indexOf_lt {l : List String} {a : String} {n : Nat}
    (ha : a ∈ l) (h : l.indexOf a < n) : a ∈ l.take n := by
  induction l generalizing n with
  | nil => simp at ha
  | cons x xs ih =>
    by_cases hax : a = x
    · subst hax
      cases n with
      | zero => simp [List.indexOf_cons_self] at h
      | succ n => simp [List.take_succ_cons]
    · have hx : (x :: xs).indexOf a = xs.indexOf a + 1 :=
        List.indexOf_cons_ne xs (by exact fun hc => hax hc.symm)
      rw [hx] at h
      cases n with
      | zero => omega
      | succ n =>
        rw [List.take_succ_cons]
        have ha2 : a ∈ xs := by
          rcases List.mem_cons.mp ha with h1 | h1
          · exact absurd h1 hax
          · exact h1
        exact List.mem_cons_of_mem _ (ih ha2 (by omega))

/-- Value bound to `t` by the leveling pass over `l1 ++ t :: l2`. -/
lemma levelsAux_split (tasks : List Task) (l1 l2 : List String) (t : String)
    (hnd : (l1 ++ t :: l2).Nodup) :
    (levelsAux tasks [] (l1 ++ t :: l2)).lookup t
      = some (1 + ((depsOf tasks t).map
          (fun d => ((levelsAux tasks [] l1).lookup d).getD 0)).foldr max 0) := by
  rw [levelsAux_concat tasks l1 (t :: l2) []]
  set m1 := levelsAux tasks [] l1 with hm1
  have hkeys : m1.map Prod.fst = l1 := by
    rw [hm1, levelsAux_keys]
    simp
  have htl1 : t ∉ l1 := by
    obtain ⟨-, -, hdisj⟩ := List.nodup_append.mp hnd
    exact fun hc => hdisj hc (by simp)
  have htnone : m1.lookup t = none := lookup_none_of_not_mem_keys (hkeys ▸ htl1)
  show (levelsAux tasks (levelEntry tasks m1 t) l2).lookup t = _
  obtain ⟨d2, hd2⟩ := levelsAux_eq_append tasks l2 (levelEntry tasks m1 t)
  rw [hd2, levelEntry, List.append_assoc]
  rw [lookup_append_none htnone]
  simp [List.lookup]

lemma find_task_eq {tasks : List Task} (hids : (tasks.map (fun t => t.id)).Nodup)
    {T : Task} (hT : T ∈ tasks) :
    tasks.find? (fun t => t.id == T.id) = some T := by
  induction tasks with
  | nil => simp at hT
  | cons t ts ih =>
    simp only [List.map_cons, List.nodup_cons] at hids
    by_cases h : t.id = T.id
    · rw [List.find?_cons_of_pos _ (by simpa using h)]
      rcases List.mem_cons.mp hT with rfl | hTts
      · rfl
      · exfalso
        apply hids.1
        rw [h]
        exact List.mem_map.mpr ⟨T, hTts, rfl⟩
    · rw [List.find?_cons_of_neg _ (by simpa using h)]
      apply ih hids.2
      rcases List.mem_cons.mp hT with rfl | hTts
      · exact absurd rfl h
      · exact hTts

lemma lookup_tasks_map {tasks : List Task}
    (hids : (tasks.map (fun t => t.id)).Nodup) (f : Task → List String)
    {D : Task} (hD : D ∈ tasks) :
    (tasks.map (fun t => (t.id, f t))).lookup D.id = some (f D) := by
  induction tasks with
  | nil => simp at hD
  | cons t ts ih =>
    simp only [List.map_cons, List.nodup_cons] at hids
    by_cases h : D.id = t.id
    · have hDt : D = t := by
        rcases List.mem_cons.mp hD with rfl | hDts
        · rfl
        · exfalso
          apply hids.1
          rw [← h]
          exact List.mem_map.mpr ⟨D, hDts, rfl⟩
      subst hDt
      simp [List.lookup]
    · have hki : (D.id == t.id) = false := beq_eq_false_iff_ne.mpr h
      simp only [List.map_cons, List.lookup, hki]
      apply ih hids.2
      rcases List.mem_cons.mp hD with rfl | hDts
      · exact absurd rfl h
      · exact hDts

/-! ### GraphBuilder facts -/

lemma buildGraph_ok {tasks : List Task} {br : BuildResult}
    (h : buildGraph tasks = .ok br) :
    (tasks.map (fun t => t.id)).Nodup ∧
      br.graph = ⟨tasks.map (fun t => t.id), buildAdj tasks⟩ := by
  rw [buildGraph] at h
  cases hfd : firstDupId (tasks.map fun t => t.id) with
  | some d =>
    rw [hfd] at h
    simp at h
  | none =>
    rw [hfd] at h
    cases hsd : tasks.find? (fun t => t.dependsOn.contains t.id) with
    | some t =>
      rw [hsd] at h
      simp at h
    | none =>
      rw [hsd] at h
      simp only [Except.ok.injEq] at h
      exact ⟨(firstDupId_none_iff _).mp hfd, by rw [← h]⟩

lemma buildAdj_wf {tasks : List Task}
    (hids : (tasks.map (fun t => t.id)).Nodup) :
    Graph.Wellformed ⟨tasks.map (fun t => t.id), buildAdj tasks⟩ := by
  refine ⟨hids, ?_⟩
  intro p hp
  obtain ⟨t, ht, rfl⟩ := List.mem_map.mp hp
  refine ⟨List.mem_map.mpr ⟨t, ht, rfl⟩, List.nodup_dedup _, ?_⟩
  intro x hx
  rw [List.mem_dedup] at hx
  rcases List.mem_append.mp hx with h1 | h1
  · obtain ⟨v, hv, rfl⟩ := List.mem_map.mp h1
    exact List.mem_map.mpr ⟨v, (List.mem_filter.mp hv).1, rfl⟩
  · obtain ⟨hb, hany⟩ := List.mem_filter.mp h1
    rw [List.any_eq_true] at hany
    obtain ⟨v, hv, hvx⟩ := hany
    exact List.mem_map.mpr ⟨v, hv, by simpa using hvx⟩

lemma buildGraph_edge_of_dep {tasks : List Task}
    (hids : (tasks.map (fun t => t.id)).Nodup) {T D : Task}
    (hT : T ∈ tasks) (hD : D ∈ tasks) (hdep : D.id ∈ T.dependsOn) :
    Edge ⟨tasks.map (fun t => t.id), buildAdj tasks⟩ D.id T.id := by
  show T.id ∈ Graph.succs _ D.id
  unfold Graph.succs Graph.adj
  show T.id ∈ ((buildAdj tasks).lookup D.id).getD []
  unfold buildAdj
  rw [lookup_tasks_map hids _ hD]
  simp only [Option.getD_some]
  rw [List.mem_dedup]
  apply List.mem_append_left
  exact List.mem_map.mpr ⟨T, List.mem_filter.mpr ⟨hT, by simpa using hdep⟩, rfl⟩

/-- C4: for acyclic input, the leveling computed by the ParallelGrouper
assigns every task a level strictly greater than the level of each of
its known dependencies. -/
theorem grouper_level_strict (tasks : List Task) (br : BuildResult)
    (hbuild : buildGraph tasks = .ok br) (hacyc : Acyclic br.graph)
    (T : Task) (hT : T ∈ tasks) (D : Task) (hD : D ∈ tasks)
    (hdep : D.id ∈ T.dependsOn) :
    levelOf (computeLevels tasks br.graph) D.id
      < levelOf (computeLevels tasks br.graph) T.id := by
  obtain ⟨hids, hgr⟩ := buildGraph_ok hbuild
  have hwf : br.graph.Wellformed := by
    rw [hgr]
    exact buildAdj_wf hids
  have hedge : Edge br.graph D.id T.id := by
    rw [hgr]
    exact buildGraph_edge_of_dep hids hT hD hdep
  have hfin := topo_final br.graph hwf
  set ord := (topologicalSchedule br.graph).1 with hordd
  have hTn : T.id ∈ br.graph.nodes := by
    rw [hgr]
    exact List.mem_map.mpr ⟨T, hT, rfl⟩
  have hT_ord : T.id ∈ ord := kahnFinal_complete hwf hfin hacyc _ hTn
  have hD_ord : D.id ∈ ord := by
    have hDn : D.id ∈ br.graph.nodes := by
      rw [hgr]
      exact List.mem_map.mpr ⟨D, hD, rfl⟩
    exact kahnFinal_complete hwf hfin hacyc _ hDn
  obtain ⟨-, hidx⟩ := hfin.2.2.1 _ _ hedge hT_ord
  have hordnd : ord.Nodup := hfin.1
  set i := ord.indexOf T.id with hi
  have hilt : i < ord.length := List.indexOf_lt_length.mpr hT_ord
  have hgetT : ord[i] = T.id := List.getElem_indexOf hilt
  have hsplit : ord = ord.take i ++ T.id :: ord.drop (i + 1) := by
    conv_lhs => rw [← List.take_append_drop i ord]
    rw [List.drop_eq_getElem_cons hilt, hgetT]
  have hD_take : D.id ∈ ord.take i := mem_take_of_indexOf_lt hD_ord hidx
  have hndsplit : (ord.take i ++ T.id :: ord.drop (i + 1)).Nodup := hsplit ▸ hordnd
  have hlevels : computeLevels tasks br.graph
      = levelsAux tasks [] (ord.take i ++ T.id :: ord.drop (i + 1)) := by
    rw [computeLevels, ← hordd, ← hsplit]
  set m1 := levelsAux tasks [] (ord.take i) with hm1
  have hkeys1 : m1.map Prod.fst = ord.take i := by
    rw [hm1, levelsAux_keys]
    simp
  obtain ⟨vD, hvD⟩ := lookup_some_of_mem_keys (m := m1) (hkeys1 ▸ hD_take)
  have hfinalD : (computeLevels tasks br.graph).lookup D.id = some vD := by
    rw [hlevels, levelsAux_concat tasks _ _ []]
    show (levelsAux tasks m1 (T.id :: ord.drop (i + 1))).lookup D.id = some vD
    obtain ⟨d2, hd2⟩ := levelsAux_eq_append tasks (T.id :: ord.drop (i + 1)) m1
    rw [hd2]
    exact lookup_append_some hvD
  have hfinalT := levelsAux_split tasks (ord.take i) (ord.drop (i + 1)) T.id hndsplit
  rw [← hlevels] at hfinalT
  rw [← hm1] at hfinalT
  have hDdeps : D.id ∈ depsOf tasks T.id := by
    unfold depsOf
    rw [find_task_eq hids hT]
    simpa using hdep
  have hmax : vD ≤ ((depsOf tasks T.id).map
      (fun d => (m1.lookup d).getD 0)).foldr max 0 := by
    apply le_foldr_max
    apply List.mem_map.mpr
    exact ⟨D.id, hDdeps, by rw [hvD]; rfl⟩
  rw [levelOf, levelOf, hfinalD, hfinalT]
  simp only [Option.getD_some]
  omega

set_option maxHeartbeats 2000000 in
/-- C4 witness: in the scenario graph, level C < level D via the
dependency D → C. -/
theorem grouper_level_strict_witness :
    buildGraph exampleTasks
        = .ok ⟨⟨exampleTasks.map (fun t => t.id), buildAdj exampleTasks⟩,
            exampleTasks.map (fun t => (t.id, t)), []⟩ ∧
      Acyclic (⟨exampleTasks.map (fun t => t.id), buildAdj exampleTasks⟩ : Graph) ∧
      levelOf (computeLevels exampleTasks
          ⟨exampleTasks.map (fun t => t.id), buildAdj exampleTasks⟩) "C"
        < levelOf (computeLevels exampleTasks
            ⟨exampleTasks.map (fun t => t.id), buildAdj exampleTasks⟩) "D" := by
  have hacyc : Acyclic (⟨exampleTasks.map (fun t => t.id), buildAdj exampleTasks⟩ : Graph) :=
    acyclic_of_complete (by decide) (by decide)
  have hb : buildGraph exampleTasks
      = .ok ⟨⟨exampleTasks.map (fun t => t.id), buildAdj exampleTasks⟩,
          exampleTasks.map (fun t => (t.id, t)), []⟩ := rfl
  refine ⟨hb, hacyc, ?_⟩
  exact grouper_level_strict exampleTasks
    ⟨⟨exampleTasks.map (fun t => t.id), buildAdj exampleTasks⟩,
      exampleTasks.map (fun t => (t.id, t)), []⟩
    hb hacyc
    ⟨"D", .pending, .medium, ["C"], [], [], none⟩ (by decide)
    ⟨"C", .pending, .medium, ["A", "B"], [], [], none⟩ (by decide)
    (by decide)

end Torq
